import Mathlib

/-!
# Force-torque correlation function and parallel random number seeding

A shallow embedding of `ForTorCorrFunc` (applications/dynamicProps/ForTorCorrFunc.cpp),
of the seeding logic of `ParallelRandNumGen` (math/ParallelRandNumGen.cpp) and of the
fragment grouping and output naming of `OOPSEFormat::WriteMolecule`
(applications/atom2md/oopseformat.cpp), followed by theorems about them.

Real numbers are taken in exact arithmetic: a `RealType` is either a rational
number or the non-finite outcome of a division by zero, which every later
operation propagates. The extractors are given a second time with the arithmetic
as a parameter (exact, or rounded to binary64) and with the 32-bit range of their
counts.
-/

set_option autoImplicit false

namespace OpenMD

/-! ## Real numbers, vectors and tensors -/

/-- Modelled from the spec: the scalar type `RealType` (declared outside the given
sources) in exact arithmetic. `fin q` is the rational `q`; `nonfin` stands for the
non-finite value (infinity or not-a-number) that a division by a zero count
produces and that addition, subtraction, multiplication and division by a count
all propagate. -/
inductive RealType where
  | fin (q : ℚ)
  | nonfin
  deriving DecidableEq

namespace RealType

/-- Addition of two reals; a non-finite operand gives a non-finite sum. -/
def add : RealType → RealType → RealType
  | fin a, fin b => fin (a + b)
  | _, _ => nonfin

/-- Subtraction of two reals; a non-finite operand gives a non-finite difference. -/
def sub : RealType → RealType → RealType
  | fin a, fin b => fin (a - b)
  | _, _ => nonfin

/-- Multiplication of two reals; a non-finite operand gives a non-finite product. -/
def mul : RealType → RealType → RealType
  | fin a, fin b => fin (a * b)
  | _, _ => nonfin

/-- Division `x / RealType(n)` of a real by an integer count converted to a real:
non-finite when the count is zero. -/
def divCount : RealType → Int → RealType
  | fin a, n => if n = 0 then nonfin else fin (a / (n : ℚ))
  | nonfin, _ => nonfin

instance : Add RealType := ⟨add⟩
instance : Sub RealType := ⟨sub⟩
instance : Mul RealType := ⟨mul⟩
instance : Zero RealType := ⟨fin 0⟩

/-- Addition on `RealType` is a commutative monoid: exact on finite values, with the
non-finite value absorbing. -/
instance : AddCommMonoid RealType where
  add_assoc a b c := by
    cases a <;> cases b <;> cases c <;>
      first
      | rfl
      | exact congrArg fin (add_assoc _ _ _)
  zero_add a := by
    cases a
    · exact congrArg fin (zero_add _)
    · rfl
  add_zero a := by
    cases a
    · exact congrArg fin (add_zero _)
    · rfl
  add_comm a b := by
    cases a <;> cases b <;>
      first
      | rfl
      | exact congrArg fin (add_comm _ _)
  nsmul := nsmulRec

end RealType

/-- Modelled from the spec: `Vector3d`, a vector of three reals (`data_[3]`). -/
abbrev Vector3d := Fin 3 → RealType

/-- Modelled from the spec: `Mat3x3d`, a 3x3 tensor of reals (`data_[3][3]`),
indexed by row and column. -/
abbrev Mat3x3d := Fin 3 → Fin 3 → RealType

/-- The zero vector `V3Zero`. -/
def V3Zero : Vector3d := fun _ => RealType.fin 0

/-- The zero tensor `M3Zero`. -/
def M3Zero : Mat3x3d := fun _ _ => RealType.fin 0

/-- Vector built from three components. -/
def Vector3d.mk (x y z : RealType) : Vector3d := fun i =>
  match i with
  | 0 => x
  | 1 => y
  | 2 => z

/-- Embedding of a rational vector. -/
def Vector3d.ofRat (v : Fin 3 → ℚ) : Vector3d := fun i => RealType.fin (v i)

/-- Embedding of a rational tensor. -/
def Mat3x3d.ofRat (m : Fin 3 → Fin 3 → ℚ) : Mat3x3d := fun r c => RealType.fin (m r c)

/-- Modelled from the spec: `v /= RealType(n)` on a vector, component by component. -/
def Vector3d.divCount (v : Vector3d) (n : Int) : Vector3d := fun i => (v i).divCount n

/-- Modelled from the spec: `m /= RealType(n)` on a tensor, entry by entry. -/
def Mat3x3d.divCount (m : Mat3x3d) (n : Int) : Mat3x3d := fun r c => (m r c).divCount n

/-- Modelled from the spec: `outProduct`, the tensor outer product of two 3-vectors
yielding a 3x3 tensor (the helper itself is declared outside the given sources). -/
def outProduct (a b : Vector3d) : Mat3x3d := fun r c => a r * b c

/-- Modelled from the spec: the matrix-vector product `A * v` used to rotate a
vector into the body frame. -/
def Mat3x3d.mulVec (m : Mat3x3d) (v : Vector3d) : Vector3d := fun i =>
  m i 0 * v 0 + m i 1 * v 1 + m i 2 * v 2

/-- The part of a `StuntDouble` read by the extractors: rotation matrix, force
and torque. -/
structure StuntDouble where
  A : Mat3x3d
  frc : Vector3d
  trq : Vector3d

/-- Accessor `getA`. -/
def StuntDouble.getA (sd : StuntDouble) : Mat3x3d := sd.A

/-- Accessor `getFrc`. -/
def StuntDouble.getFrc (sd : StuntDouble) : Vector3d := sd.frc

/-- Accessor `getTrq`. -/
def StuntDouble.getTrq (sd : StuntDouble) : Vector3d := sd.trq

/-! ## The correlation function object -/

/-- The accumulated quantities of the correlation function: the time-lag bins
(`histogram_`, `count_`, `nTimeBins_`, members of the base class) and the two
running sums with their counts. The `int` counts are integers without a bound: the
overflow of a 32-bit count (2^31 samples or more) is not modelled. -/
structure AccumulatorState where
  nTimeBins_ : Nat
  histogram_ : List Mat3x3d
  count_ : List Int
  sumForces_ : Vector3d
  forcesCount_ : Int
  sumTorques_ : Vector3d
  torquesCount_ : Int

/-- The object state of `ForTorCorrFunc`: the accumulated quantities together with
the per-frame sample stores `forces_` and `torques_`. -/
structure ForTorCorrFunc extends AccumulatorState where
  nFrames_ : Nat
  forces_ : List (List Vector3d)
  torques_ : List (List Vector3d)
  propertyTemp : Vector3d

namespace ForTorCorrFunc

/-- The constructor body, applied to the members set up by the base class
(`nFrames_`, `nTimeBins_`, `histogram_`, `count_`). -/
def new (nFrames_ nTimeBins_ : Nat) (histogram_ : List Mat3x3d) (count_ : List Int) :
    ForTorCorrFunc where
  nTimeBins_ := nTimeBins_
  histogram_ := histogram_
  count_ := count_
  nFrames_ := nFrames_
  forces_ := List.replicate nFrames_ []
  torques_ := List.replicate nFrames_ []
  sumForces_ := V3Zero
  sumTorques_ := V3Zero
  forcesCount_ := 0
  torquesCount_ := 0
  propertyTemp := V3Zero

/-- The method `computeProperty1`: the new state and the returned slot index.
An out-of-range `frame` (undefined behaviour in the source) gives `none`. -/
def computeProperty1 (s : ForTorCorrFunc) (frame : Nat) (sd : StuntDouble) :
    Option (ForTorCorrFunc × Nat) :=
  let propertyTemp := sd.getA.mulVec sd.getFrc
  match s.forces_[frame]? with
  | none => none
  | some row =>
    let forces_ := s.forces_.set frame (row ++ [propertyTemp])
    some ({ s with
            propertyTemp := propertyTemp
            forces_ := forces_
            sumForces_ := s.sumForces_ + propertyTemp
            forcesCount_ := s.forcesCount_ + 1 },
          (row ++ [propertyTemp]).length - 1)

/-- The method `computeProperty2`: the new state and the returned slot index.
An out-of-range `frame` (undefined behaviour in the source) gives `none`. -/
def computeProperty2 (s : ForTorCorrFunc) (frame : Nat) (sd : StuntDouble) :
    Option (ForTorCorrFunc × Nat) :=
  let propertyTemp := sd.getA.mulVec sd.getTrq
  match s.torques_[frame]? with
  | none => none
  | some row =>
    let torques_ := s.torques_.set frame (row ++ [propertyTemp])
    some ({ s with
            propertyTemp := propertyTemp
            torques_ := torques_
            sumTorques_ := s.sumTorques_ + propertyTemp
            torquesCount_ := s.torquesCount_ + 1 },
          (row ++ [propertyTemp]).length - 1)

/-- The method `calcCorrVal`; an out-of-range lookup (undefined behaviour in the
source) gives `none`. -/
def calcCorrVal (s : ForTorCorrFunc) (frame1 frame2 id1 id2 : Nat) : Option Mat3x3d :=
  match s.forces_[frame1]?, s.torques_[frame2]? with
  | some fr, some tr =>
    match fr[id1]?, tr[id2]? with
    | some f, some t => some (outProduct f t)
    | _, _ => none
  | _, _ => none

/-- One iteration of the loop of `postCorrelate` for bin `i`. Reads outside the
vectors (undefined behaviour in the source) yield the defaults `0` and `M3Zero`. -/
def postCorrelateStep (correlationOfAverages_ : Mat3x3d) (count_ : List Int)
    (histogram_ : List Mat3x3d) (i : Nat) : List Mat3x3d :=
  if count_.getD i 0 > 0 then
    histogram_.set i (((histogram_.getD i M3Zero).divCount (count_.getD i 0))
      - correlationOfAverages_)
  else
    histogram_.set i M3Zero

/-- The method `postCorrelate`. -/
def postCorrelate (s : ForTorCorrFunc) : ForTorCorrFunc :=
  let sumForces_ := s.sumForces_.divCount s.forcesCount_
  let sumTorques_ := s.sumTorques_.divCount s.torquesCount_
  let correlationOfAverages_ := outProduct sumForces_ sumTorques_
  { s with
    sumForces_ := sumForces_
    sumTorques_ := sumTorques_
    histogram_ := (List.range s.nTimeBins_).foldl
      (postCorrelateStep correlationOfAverages_ s.count_) s.histogram_ }

/-- The value stored at slot `id` of frame `frame` of a sample store, if any. -/
def sample (store : List (List Vector3d)) (frame id : Nat) : Option Vector3d :=
  match store[frame]? with
  | some row => row[id]?
  | none => none

/-- One call of an extractor. -/
inductive Call where
  | property1 (frame : Nat) (sd : StuntDouble)
  | property2 (frame : Nat) (sd : StuntDouble)

/-- The frame an extractor call is made on. -/
def Call.frame : Call → Nat
  | .property1 f _ => f
  | .property2 f _ => f

/-- Whether the call is `computeProperty1` on frame `f`. -/
def Call.isProperty1On (f : Nat) : Call → Bool
  | .property1 g _ => g == f
  | .property2 _ _ => false

/-- Whether the call is `computeProperty2` on frame `f`. -/
def Call.isProperty2On (f : Nat) : Call → Bool
  | .property1 _ _ => false
  | .property2 g _ => g == f

/-- The state and return value of one extractor call. -/
def step (s : ForTorCorrFunc) : Call → Option (ForTorCorrFunc × Nat)
  | .property1 f sd => s.computeProperty1 f sd
  | .property2 f sd => s.computeProperty2 f sd

/-- A sequence of extractor calls, executed in order: the final state and the list of
returned slot indices. -/
def run (s : ForTorCorrFunc) : List Call → Option (ForTorCorrFunc × List Nat)
  | [] => some (s, [])
  | c :: cs =>
    match step s c with
    | none => none
    | some (s1, r) =>
      match run s1 cs with
      | none => none
      | some (s2, rs) => some (s2, r :: rs)

/-- The sum of all vectors held in a sample store, over all frames. -/
def storeSum (store : List (List Vector3d)) : Vector3d := (store.map List.sum).sum

/-- The number of vectors held in a sample store: the sum over frames of the sizes. -/
def storeCount (store : List (List Vector3d)) : Nat := (store.map List.length).sum

/-- The running-mean invariant: each running sum is the sum of the vectors stored on
its side and each running count is their number. -/
def RunningMeans (s : ForTorCorrFunc) : Prop :=
  s.sumForces_ = storeSum s.forces_ ∧ s.forcesCount_ = (storeCount s.forces_ : Int) ∧
    s.sumTorques_ = storeSum s.torques_ ∧ s.torquesCount_ = (storeCount s.torques_ : Int)

/-- The sum of `calcCorrVal(f, f, i, i)` over all stored pairs `(f, i)`: every frame
`f` and every slot `i` of its force sequence. -/
def zeroLagSum (s : ForTorCorrFunc) : Mat3x3d :=
  ((List.range s.forces_.length).map (fun f =>
    ((List.range (s.forces_.getD f []).length).map (fun i =>
      (s.calcCorrVal f f i i).getD M3Zero)).sum)).sum

end ForTorCorrFunc

/-! ## The extractors in machine arithmetic -/

/-- The power `2 ^ e` of two as a rational, for an integer exponent. -/
def pow2 (e : Int) : ℚ :=
  if 0 ≤ e then ((2 ^ e.toNat : Nat) : ℚ) else 1 / ((2 ^ (-e).toNat : Nat) : ℚ)

/-- The number of binary digits of `n`, computed with `fuel` halvings at most. -/
def bitLength : Nat → Nat → Nat
  | 0, _ => 0
  | fuel + 1, n => if n = 0 then 0 else bitLength fuel (n / 2) + 1

/-- The integer `k` with `2 ^ k ≤ a < 2 ^ (k + 1)`, for a positive rational `a`. -/
def floorLog2 (a : ℚ) : Int :=
  let k0 : Int := (bitLength a.num.natAbs a.num.natAbs : Int) - (bitLength a.den a.den : Int)
  if pow2 k0 ≤ a then k0 else k0 - 1

/-- Modelled from the spec: the rounding of an exact result to `RealType` when that type
is the IEEE 754 binary64 `double`: round to nearest, ties to even, with a 53-bit
significand, gradual underflow below `2 ^ (-1022)` and overflow to a non-finite value
from `2 ^ 1024` on. -/
def roundDouble (q : ℚ) : RealType :=
  if q = 0 then RealType.fin 0
  else
    let a : ℚ := |q|
    let e : Int := max (floorLog2 a - 52) (-1074)
    let scaled : ℚ := a / pow2 e
    let m : Int := Rat.floor scaled
    let r : ℚ := scaled - (m : ℚ)
    let m1 : Int :=
      if r < 1 / 2 then m
      else if 1 / 2 < r then m + 1
      else if m % 2 = 0 then m else m + 1
    let v : ℚ := (m1 : ℚ) * pow2 e
    if pow2 1024 ≤ v then RealType.nonfin
    else RealType.fin (if q < 0 then -v else v)

/-- Addition of two `double` values: the exact sum, rounded. -/
def RealType.addDouble : RealType → RealType → RealType
  | RealType.fin a, RealType.fin b => roundDouble (a + b)
  | _, _ => RealType.nonfin

/-- Multiplication of two `double` values: the exact product, rounded. -/
def RealType.mulDouble : RealType → RealType → RealType
  | RealType.fin a, RealType.fin b => roundDouble (a * b)
  | _, _ => RealType.nonfin

/-- The arithmetic of `RealType`, which the given sources leave to a typedef: its
addition and its multiplication. -/
structure Arithmetic where
  add : RealType → RealType → RealType
  mul : RealType → RealType → RealType

/-- Exact arithmetic: no rounding. -/
def Arithmetic.exact : Arithmetic where
  add := fun a b => a + b
  mul := fun a b => a * b

/-- The arithmetic of the binary64 `double`, every operation rounded once. -/
def Arithmetic.binary64 : Arithmetic where
  add := RealType.addDouble
  mul := RealType.mulDouble

/-- The largest value `INT_MAX` of the 32-bit type `int`. -/
def intMax : Int := 2147483647

/-- The matrix-vector product `A * v` in the arithmetic `ar`. -/
def Mat3x3d.mulVecIn (ar : Arithmetic) (m : Mat3x3d) (v : Vector3d) : Vector3d := fun i =>
  ar.add (ar.add (ar.mul (m i 0) (v 0)) (ar.mul (m i 1) (v 1))) (ar.mul (m i 2) (v 2))

/-- The update `a += b` on vectors in the arithmetic `ar`. -/
def Vector3d.addIn (ar : Arithmetic) (a b : Vector3d) : Vector3d := fun i => ar.add (a i) (b i)

namespace ForTorCorrFunc

/-- The method `computeProperty1` in the arithmetic `ar` and with the 32-bit `int`
count: an out-of-range `frame` and the signed overflow of `forcesCount_++` at `INT_MAX`
(both undefined behaviour in the source) give `none`. -/
def computeProperty1In (ar : Arithmetic) (s : ForTorCorrFunc) (frame : Nat) (sd : StuntDouble) :
    Option (ForTorCorrFunc × Nat) :=
  let propertyTemp := sd.getA.mulVecIn ar sd.getFrc
  match s.forces_[frame]? with
  | none => none
  | some row =>
    if s.forcesCount_ = intMax then
      none
    else
      let forces_ := s.forces_.set frame (row ++ [propertyTemp])
      some ({ s with
              propertyTemp := propertyTemp
              forces_ := forces_
              sumForces_ := s.sumForces_.addIn ar propertyTemp
              forcesCount_ := s.forcesCount_ + 1 },
            (row ++ [propertyTemp]).length - 1)

/-- The method `computeProperty2` in the arithmetic `ar` and with the 32-bit `int`
count: an out-of-range `frame` and the signed overflow of `torquesCount_++` at `INT_MAX`
(both undefined behaviour in the source) give `none`. -/
def computeProperty2In (ar : Arithmetic) (s : ForTorCorrFunc) (frame : Nat) (sd : StuntDouble) :
    Option (ForTorCorrFunc × Nat) :=
  let propertyTemp := sd.getA.mulVecIn ar sd.getTrq
  match s.torques_[frame]? with
  | none => none
  | some row =>
    if s.torquesCount_ = intMax then
      none
    else
      let torques_ := s.torques_.set frame (row ++ [propertyTemp])
      some ({ s with
              propertyTemp := propertyTemp
              torques_ := torques_
              sumTorques_ := s.sumTorques_.addIn ar propertyTemp
              torquesCount_ := s.torquesCount_ + 1 },
            (row ++ [propertyTemp]).length - 1)

/-- The state and return value of one extractor call in the arithmetic `ar`. -/
def stepIn (ar : Arithmetic) (s : ForTorCorrFunc) : Call → Option (ForTorCorrFunc × Nat)
  | .property1 f sd => s.computeProperty1In ar f sd
  | .property2 f sd => s.computeProperty2In ar f sd

/-- A sequence of extractor calls in the arithmetic `ar`, executed in order: the final
state and the list of returned slot indices. -/
def runIn (ar : Arithmetic) (s : ForTorCorrFunc) :
    List Call → Option (ForTorCorrFunc × List Nat)
  | [] => some (s, [])
  | c :: cs =>
    match stepIn ar s c with
    | none => none
    | some (s1, r) =>
      match runIn ar s1 cs with
      | none => none
      | some (s2, rs) => some (s2, r :: rs)

/-- Whether the call is `computeProperty1`, on any frame. -/
def Call.isProperty1 : Call → Bool
  | .property1 _ _ => true
  | .property2 _ _ => false

/-- Whether the call is `computeProperty2`, on any frame. -/
def Call.isProperty2 : Call → Bool
  | .property1 _ _ => false
  | .property2 _ _ => true

/-- The sum of all vectors held in a sample store, added in the arithmetic `ar` slot by
slot within a frame and then frame by frame. -/
def storeSumIn (ar : Arithmetic) (store : List (List Vector3d)) : Vector3d :=
  (store.map (fun row => row.foldl (Vector3d.addIn ar) V3Zero)).foldl (Vector3d.addIn ar) V3Zero

end ForTorCorrFunc

/-! ## Merging accumulator states -/

namespace AccumulatorState

/-- Modelled from the spec: the partial-result reducer, which is not part of the given
sources. Two accumulator states are merged by element-wise summation of all bin sums and
counts and of both running sums and counts; merging states built with different numbers
of bins fails. -/
def merge (a b : AccumulatorState) : Option AccumulatorState :=
  if a.nTimeBins_ = b.nTimeBins_ then
    some
      { nTimeBins_ := a.nTimeBins_
        histogram_ := List.zipWith (fun x y => x + y) a.histogram_ b.histogram_
        count_ := List.zipWith (fun x y => x + y) a.count_ b.count_
        sumForces_ := a.sumForces_ + b.sumForces_
        forcesCount_ := a.forcesCount_ + b.forcesCount_
        sumTorques_ := a.sumTorques_ + b.sumTorques_
        torquesCount_ := a.torquesCount_ + b.torquesCount_ }
  else none

/-- The single state over `n` bins whose fields are the totals of the fields of the
states in `l`. -/
def totals (n : Nat) (l : List AccumulatorState) : AccumulatorState where
  nTimeBins_ := n
  histogram_ := (List.range n).map (fun i => (l.map (fun a => a.histogram_.getD i M3Zero)).sum)
  count_ := (List.range n).map (fun i => (l.map (fun a => a.count_.getD i 0)).sum)
  sumForces_ := (l.map (fun a => a.sumForces_)).sum
  forcesCount_ := (l.map (fun a => a.forcesCount_)).sum
  sumTorques_ := (l.map (fun a => a.sumTorques_)).sum
  torquesCount_ := (l.map (fun a => a.torquesCount_)).sum

/-- A state over `n` bins: `histogram_` and `count_` have one entry per bin. -/
def HasBins (n : Nat) (a : AccumulatorState) : Prop :=
  a.nTimeBins_ = n ∧ a.histogram_.length = n ∧ a.count_.length = n

end AccumulatorState

/-- A way of merging a non-empty collection of partial states: the order of the leaves
is the order of the states and the shape is the grouping of the pairwise merges. -/
inductive MergeTree where
  | leaf (a : AccumulatorState)
  | node (l r : MergeTree)

namespace MergeTree

/-- The partial states of a merge, from left to right. -/
def leaves : MergeTree → List AccumulatorState
  | leaf a => [a]
  | node l r => l.leaves ++ r.leaves

/-- The merged state, if every pairwise merge succeeds. -/
def eval : MergeTree → Option AccumulatorState
  | leaf a => some a
  | node l r =>
    match l.eval, r.eval with
    | some a, some b => a.merge b
    | _, _ => none

end MergeTree

/-- The object `base` with its accumulated quantities replaced by `a`. -/
def ForTorCorrFunc.withAccumulator (base : ForTorCorrFunc) (a : AccumulatorState) :
    ForTorCorrFunc :=
  { base with toAccumulatorState := a }

end OpenMD

/-! ## Seeding of the parallel random number generator (single-process build) -/

namespace oopse

/-- Conversion of an integer value to the 32-bit type `int` (two's-complement wrap). -/
def toInt (x : Int) : Int := (x + 2147483648) % 4294967296 - 2147483648

/-- Conversion of an integer value to the unsigned type `uint32`. The typedef is
declared outside the given sources; its width in bits is the parameter `w`. -/
def toUint32 (w : Nat) (x : Int) : Int := x % (2 : Int) ^ w

/-- The message of the seed-mismatch error. -/
def seedMismatch : String := "Using different seed to initialize ParallelRandNumGen."

/-- The part of an `MTRand` object fixed by its construction or seeding: the seed
argument it was handed, the number of strides and the stride. -/
structure MTRand where
  seed : Int
  nstrides : Int
  stride : Int

/-- The object state of `ParallelRandNumGen`. -/
structure ParallelRandNumGen where
  mtRand_ : MTRand
  myRank_ : Int

namespace ParallelRandNumGen

/-- The constructor `ParallelRandNumGen(const uint32& oneSeed)` without `IS_MPI`, run
with the static counter at `nCreatedRNG_`: the fatal error, or the new object and the new
value of the counter. The increment of the counter is taken in two's complement; at
`INT_MAX` the source's signed overflow is undefined. -/
def new (w : Nat) (nCreatedRNG_ : Int) (oneSeed : Int) :
    Except String (ParallelRandNumGen × Int) :=
  let seed : Int := toInt oneSeed
  if toUint32 w seed ≠ oneSeed then
    Except.error seedMismatch
  else
    let nProcessors : Int := 1
    let myRank_ : Int := 0
    let newSeed : Int := toInt (toUint32 w (oneSeed + toUint32 w nCreatedRNG_))
    Except.ok
      ({ mtRand_ := { seed := newSeed, nstrides := nProcessors, stride := myRank_ }
         myRank_ := myRank_ },
       toInt (nCreatedRNG_ + 1))

/-- The method `seed(const uint32 oneSeed)` without `IS_MPI`, run with the static
counter at `nCreatedRNG_`: the fatal error, or the reseeded object and the new value of the
counter. The increment of the counter is taken in two's complement; at `INT_MAX` the
source's signed overflow is undefined. -/
def seed (w : Nat) (g : ParallelRandNumGen) (nCreatedRNG_ : Int) (oneSeed : Int) :
    Except String (ParallelRandNumGen × Int) :=
  let seed : Int := toInt oneSeed
  if toUint32 w seed ≠ oneSeed then
    Except.error seedMismatch
  else
    let newSeed : Int := toInt (toUint32 w (oneSeed + toUint32 w nCreatedRNG_))
    Except.ok ({ g with mtRand_ := { g.mtRand_ with seed := newSeed } },
      toInt (nCreatedRNG_ + 1))

end ParallelRandNumGen

end oopse

/-! ## The structural-format converter (applications/atom2md/oopseformat.cpp) -/

namespace OpenBabel

/-- The molecule, as far as `AreSameFragments` reads it: the atomic number
`GetAtom(idx)->GetAtomicNum()` of the atom with index `idx`. `OBMol` is a type of the
OpenBabel library; every index held by a contiguous fragment list is valid, so the lookup
is total. -/
structure OBMol where
  atomicNum : Int → Nat

namespace OOPSEFormat

/-- The method `AreSameFragments`: equal sizes, and the loop over the positions returns
`false` at the first position whose two atoms differ in atomic number. -/
def AreSameFragments (mol : OBMol) (frag1 frag2 : List Int) : Bool :=
  if frag1.length ≠ frag2.length then
    false
  else
    (List.range frag1.length).all (fun i =>
      mol.atomicNum (frag1.getD i 0) == mol.atomicNum (frag2.getD i 0))

/-- The variables of the grouping loop of `WriteMolecule`. -/
structure Grouping where
  used : List Bool
  molecules : List (List Nat)
  indices : List Int

/-- The body of the inner loop of `WriteMolecule` for one `j`, acting on `used`,
`sameMolTypes` and `indices`. -/
def innerStep (mol : OBMol) (fragmentLists : List (List Int)) (i : Nat)
    (st : List Bool × List Nat × List Int) (j : Nat) : List Bool × List Nat × List Int :=
  if st.1.getD j false then
    st
  else if AreSameFragments mol (fragmentLists.getD i []) (fragmentLists.getD j []) then
    (st.1.set j true, st.2.1 ++ [j], st.2.2 ++ fragmentLists.getD j [])
  else
    st

/-- The body of the outer loop of `WriteMolecule` for one `i`; the inner loop runs over
`j = i + 1, ..., used.size() - 1`. -/
def outerStep (mol : OBMol) (fragmentLists : List (List Int)) (st : Grouping) (i : Nat) :
    Grouping :=
  if st.used.getD i false then
    st
  else
    let used := st.used.set i true
    let sameMolTypes := [i]
    let indices := st.indices ++ fragmentLists.getD i []
    let r := (List.range' (i + 1) (used.length - (i + 1))).foldl
      (innerStep mol fragmentLists i) (used, sameMolTypes, indices)
    { used := r.1, molecules := st.molecules ++ [r.2.1], indices := r.2.2 }

/-- The grouping loop of `WriteMolecule` (lines 78-108), run on the fragment lists
returned by `ContigFragList`. -/
def groupFragments (mol : OBMol) (fragmentLists : List (List Int)) : Grouping :=
  (List.range fragmentLists.length).foldl (outerStep mol fragmentLists)
    { used := List.replicate fragmentLists.length false, molecules := [], indices := [] }

/-- The invariant of the outer loop before iteration `k`: `used` has one flag per
fragment, the used indices are those held by a group, no index is held twice, every group
is the whole class of each of its members (same sequence of atomic numbers), and every
index below `k` is used. -/
def GroupingInv (mol : OBMol) (F : List (List Int)) (k : Nat) (st : Grouping) : Prop :=
  st.used.length = F.length ∧
  (∀ j, st.used.getD j false = true ↔ ∃ g ∈ st.molecules, j ∈ g) ∧
  st.molecules.flatten.Nodup ∧
  (∀ g ∈ st.molecules, ∀ a ∈ g, ∀ b, b ∈ g ↔
    (b < F.length ∧
      (F.getD a []).map mol.atomicNum = (F.getD b []).map mol.atomicNum)) ∧
  (∀ j, j < k → st.used.getD j false = true)

/-- The vector `numMols` built from `molecules` (lines 113-119): the size of each group. -/
def numMols (molecules : List (List Nat)) : List Int :=
  molecules.map (fun g => (g.length : Int))

/-- The position of the last `'.'` of a string, if it has one. -/
def lastDot : List Char → Option Nat
  | [] => none
  | c :: cs =>
    match lastDot cs with
    | some p => some (p + 1)
    | none => if c = '.' then some 0 else none

/-- The constant `string::npos`, the largest value of a `size_t` of `W` bits. -/
def npos (W : Nat) : Nat := 2 ^ W - 1

/-- The call `OutputFileName.rfind(".")` for a `size_t` of `W` bits: the position of
the last `'.'`, or `string::npos`. -/
def rfind (W : Nat) (name : List Char) : Nat :=
  match lastDot name with
  | some p => p
  | none => npos W

/-- The output file name computed by `WriteMolecule` (lines 121-126) from the input file
name, for a `size_t` of `W` bits: the position is stored in a 32-bit `unsigned int` and
then compared with `string::npos`; `substr(0, pos)` keeps at most `pos` characters. -/
def outputFileName (W : Nat) (inFilename : List Char) : List Char :=
  let pos : Nat := rfind W inFilename % 2 ^ 32
  if pos = npos W then
    inFilename ++ ['.', 'm', 'd']
  else
    inFilename.take pos ++ ['.', 'm', 'd']

end OOPSEFormat

end OpenBabel

namespace OpenMD

/-! ## Population statistics of a list of rational samples -/

/-- The mean `m = (1/N) * sum of v` of a list of samples. -/
def meanVector (L : List (Fin 3 → ℚ)) : Fin 3 → ℚ := fun i =>
  (L.map (fun v => v i)).sum / (L.length : ℚ)

/-- The population covariance tensor `(1/N) * sum of outProduct(v - m, v - m)`. -/
def covarianceTensor (L : List (Fin 3 → ℚ)) : Fin 3 → Fin 3 → ℚ := fun r c =>
  (L.map (fun v => (v r - meanVector L r) * (v c - meanVector L c))).sum / (L.length : ℚ)

/-- The mean of the self outer products, `(1/N) * sum of outProduct(v, v)`. -/
def meanOuter (L : List (Fin 3 → ℚ)) : Fin 3 → Fin 3 → ℚ := fun r c =>
  (L.map (fun v => v r * v c)).sum / (L.length : ℚ)

/-! ## Concrete states -/

/-- The rational vector with `q` on the first axis and zero elsewhere. -/
def axisVector (q : ℚ) : Fin 3 → ℚ := fun i => if i = 0 then q else 0

/-- The rational tensor with `q` in its first component and zero elsewhere. -/
def axisTensor (q : ℚ) : Fin 3 → Fin 3 → ℚ := fun r c => if r = 0 ∧ c = 0 then q else 0

/-- The accumulated state of the four-frame scenario: values 1, 2, 3, 4 on the first
axis for both sides, one particle per frame, four time-lag bins. -/
def scenario : ForTorCorrFunc where
  nTimeBins_ := 4
  histogram_ := [Mat3x3d.ofRat (axisTensor 30), Mat3x3d.ofRat (axisTensor 20),
    Mat3x3d.ofRat (axisTensor 11), Mat3x3d.ofRat (axisTensor 4)]
  count_ := [4, 3, 2, 1]
  sumForces_ := Vector3d.ofRat (axisVector 10)
  forcesCount_ := 4
  sumTorques_ := Vector3d.ofRat (axisVector 10)
  torquesCount_ := 4
  nFrames_ := 4
  forces_ := [[Vector3d.ofRat (axisVector 1)], [Vector3d.ofRat (axisVector 2)],
    [Vector3d.ofRat (axisVector 3)], [Vector3d.ofRat (axisVector 4)]]
  torques_ := [[Vector3d.ofRat (axisVector 1)], [Vector3d.ofRat (axisVector 2)],
    [Vector3d.ofRat (axisVector 3)], [Vector3d.ofRat (axisVector 4)]]
  propertyTemp := Vector3d.ofRat (axisVector 4)

/-- The scenario with two more bins than frame pairs can fill: bins 4 and 5 have
count zero and hold arbitrary tensors. -/
def scenarioWide : ForTorCorrFunc :=
  { scenario with
    nTimeBins_ := 6
    histogram_ := scenario.histogram_ ++ [Mat3x3d.ofRat (axisTensor 7), M3Zero]
    count_ := scenario.count_ ++ [0, 0] }

/-- A state whose force side never received a sample although bin 0 has a positive
count. -/
def noForces : ForTorCorrFunc :=
  { scenario with
    nTimeBins_ := 2
    histogram_ := [Mat3x3d.ofRat (axisTensor 30), Mat3x3d.ofRat (axisTensor 7)]
    count_ := [4, 0]
    sumForces_ := V3Zero
    forcesCount_ := 0
    forces_ := [[], [], [], []] }

/-- A particle with the identity rotation, force `(1, 2, 3)` and torque `(4, 5, 6)`. -/
def sdOne : StuntDouble where
  A := Mat3x3d.ofRat (fun r c => if r = c then 1 else 0)
  frc := Vector3d.mk (RealType.fin 1) (RealType.fin 2) (RealType.fin 3)
  trq := Vector3d.mk (RealType.fin 4) (RealType.fin 5) (RealType.fin 6)

/-- A particle with the identity rotation, force `(7, 0, -1)` and torque `(0, 2, 0)`. -/
def sdTwo : StuntDouble where
  A := Mat3x3d.ofRat (fun r c => if r = c then 1 else 0)
  frc := Vector3d.mk (RealType.fin 7) (RealType.fin 0) (RealType.fin (-1))
  trq := Vector3d.mk (RealType.fin 0) (RealType.fin 2) (RealType.fin 0)

/-- A short interleaved call sequence on two frames. -/
def demoCalls : List ForTorCorrFunc.Call :=
  [.property1 0 sdOne, .property2 0 sdOne, .property1 1 sdTwo, .property1 0 sdTwo,
   .property2 0 sdTwo]

/-- The state reached from the constructed state by the demonstration calls. -/
def demoFinal : ForTorCorrFunc :=
  ((ForTorCorrFunc.run (ForTorCorrFunc.new 2 1 [M3Zero] [0]) demoCalls).map Prod.fst).getD
    (ForTorCorrFunc.new 2 1 [M3Zero] [0])

/-- The rational vector with the three given components. -/
def vec3 (x y z : ℚ) : Fin 3 → ℚ := fun i =>
  match i with
  | 0 => x
  | 1 => y
  | 2 => z

/-- A particle with the identity rotation whose force and torque are both `v`. -/
def sdBoth (v : Fin 3 → ℚ) : StuntDouble where
  A := Mat3x3d.ofRat (fun r c => if r = c then 1 else 0)
  frc := Vector3d.ofRat v
  trq := Vector3d.ofRat v

/-- An autocorrelation pass over two frames with one particle each: both extractors
are called on the same particle, which carries `(1, 2, 0)` in frame 0 and `(3, 0, 0)` in
frame 1. -/
def autoCalls : List ForTorCorrFunc.Call :=
  [.property1 0 (sdBoth (vec3 1 2 0)), .property2 0 (sdBoth (vec3 1 2 0)),
   .property1 1 (sdBoth (vec3 3 0 0)), .property2 1 (sdBoth (vec3 3 0 0))]

/-- The state reached from the constructed state by the autocorrelation pass. -/
def autoFinal : ForTorCorrFunc :=
  ((ForTorCorrFunc.run (ForTorCorrFunc.new 2 1 [M3Zero] [0]) autoCalls).map Prod.fst).getD
    (ForTorCorrFunc.new 2 1 [M3Zero] [0])

/-- A partial state over two bins. -/
def partA : AccumulatorState where
  nTimeBins_ := 2
  histogram_ := [Mat3x3d.ofRat (axisTensor 5), Mat3x3d.ofRat (axisTensor 2)]
  count_ := [2, 1]
  sumForces_ := Vector3d.ofRat (axisVector 3)
  forcesCount_ := 2
  sumTorques_ := Vector3d.ofRat (axisVector 3)
  torquesCount_ := 2

/-- A second partial state over two bins. -/
def partB : AccumulatorState where
  nTimeBins_ := 2
  histogram_ := [Mat3x3d.ofRat (axisTensor 25), Mat3x3d.ofRat (axisTensor 12)]
  count_ := [2, 1]
  sumForces_ := Vector3d.ofRat (axisVector 7)
  forcesCount_ := 2
  sumTorques_ := Vector3d.ofRat (axisVector 7)
  torquesCount_ := 2

/-- A third partial state over two bins, with an empty second bin. -/
def partC : AccumulatorState where
  nTimeBins_ := 2
  histogram_ := [Mat3x3d.ofRat (axisTensor 1), M3Zero]
  count_ := [1, 0]
  sumForces_ := Vector3d.ofRat (axisVector 1)
  forcesCount_ := 1
  sumTorques_ := Vector3d.ofRat (axisVector 1)
  torquesCount_ := 1

/-- One grouping and order of merging the three partial states. -/
def mergeLeft : MergeTree :=
  .node (.leaf partA) (.node (.leaf partB) (.leaf partC))

/-- Another grouping and order of merging the same three partial states. -/
def mergeRight : MergeTree :=
  .node (.node (.leaf partC) (.leaf partA)) (.leaf partB)

/-- A molecule whose atoms with index `1, 4, 7, ...` are oxygen and the others
hydrogen. -/
def waterLike : OpenBabel.OBMol where
  atomicNum := fun i => if i % 3 = 1 then 8 else 1

/-- Five fragments of `waterLike`: three of the shape O-H-H and two of the shape
O-H. -/
def waterFragments : List (List Int) :=
  [[1, 2, 3], [7, 8], [4, 5, 6], [10, 11], [13, 14, 15]]

/-- Three force extractions whose values on the first axis are `10^16` (frame 0), `1`
(frame 1) and `-10^16` (frame 0), with the identity rotation. -/
def roundingCalls : List ForTorCorrFunc.Call :=
  [.property1 0 (sdBoth (axisVector 10000000000000000)),
   .property1 1 (sdBoth (axisVector 1)),
   .property1 0 (sdBoth (axisVector (-10000000000000000)))]

/-! ## Theorems -/

namespace RealType

theorem add_def (a b : RealType) : a + b = add a b := rfl

theorem sub_def (a b : RealType) : a - b = sub a b := rfl

theorem mul_def (a b : RealType) : a * b = mul a b := rfl

theorem zero_def : (0 : RealType) = fin 0 := rfl

@[simp] theorem fin_add_fin (a b : ℚ) : fin a + fin b = fin (a + b) := rfl

@[simp] theorem fin_sub_fin (a b : ℚ) : fin a - fin b = fin (a - b) := rfl

@[simp] theorem fin_mul_fin (a b : ℚ) : fin a * fin b = fin (a * b) := rfl

@[simp] theorem nonfin_add (a : RealType) : nonfin + a = nonfin := rfl

@[simp] theorem add_nonfin (a : RealType) : a + nonfin = nonfin := by cases a <;> rfl

@[simp] theorem nonfin_sub (a : RealType) : nonfin - a = nonfin := rfl

@[simp] theorem sub_nonfin (a : RealType) : a - nonfin = nonfin := by cases a <;> rfl

@[simp] theorem nonfin_mul (a : RealType) : nonfin * a = nonfin := rfl

@[simp] theorem mul_nonfin (a : RealType) : a * nonfin = nonfin := by cases a <;> rfl

theorem divCount_fin (a : ℚ) (n : Int) (h : n ≠ 0) : divCount (fin a) n = fin (a / (n : ℚ)) := by
  simp [divCount, h]

@[simp] theorem divCount_zero (a : RealType) : divCount a 0 = nonfin := by
  cases a <;> simp [divCount]

@[simp] theorem divCount_nonfin (n : Int) : divCount nonfin n = nonfin := rfl

end RealType

namespace ForTorCorrFunc

/-- The value the loop of `postCorrelate` leaves in a bin with count `c` that held `m`. -/
theorem postCorrelateStep_eq (corr : Mat3x3d) (count_ : List Int) (h : List Mat3x3d) (i : Nat) :
    postCorrelateStep corr count_ h i =
      h.set i (if count_.getD i 0 > 0 then
        ((h.getD i M3Zero).divCount (count_.getD i 0)) - corr else M3Zero) := by
  unfold postCorrelateStep
  split <;> rfl

theorem postCorrelateStep_length (corr : Mat3x3d) (count_ : List Int) (h : List Mat3x3d)
    (i : Nat) : (postCorrelateStep corr count_ h i).length = h.length := by
  rw [postCorrelateStep_eq]; simp

theorem postCorrelateLoop_getElem? (corr : Mat3x3d) (count_ : List Int) (n : Nat)
    (h : List Mat3x3d) (i : Nat) :
    ((List.range n).foldl (postCorrelateStep corr count_) h)[i]? =
      if i < n then
        (h[i]?).map (fun m => if count_.getD i 0 > 0 then
          (m.divCount (count_.getD i 0)) - corr else M3Zero)
      else h[i]? := by
  induction n with
  | zero => simp
  | succ n ih =>
    rw [List.range_succ, List.foldl_append, List.foldl_cons, List.foldl_nil,
      postCorrelateStep_eq]
    by_cases hin : i = n
    · subst hin
      have hlt : ¬ (i < i) := lt_irrefl i
      rw [if_neg hlt] at ih
      simp only [Nat.lt_succ_self, if_true]
      cases hh : h[i]? with
      | none =>
        rw [hh] at ih
        have : ((List.range i).foldl (postCorrelateStep corr count_) h).length ≤ i := by
          rw [List.getElem?_eq_none_iff] at ih; exact ih
        simp [List.getElem?_set, this, ih]
      | some m =>
        rw [hh] at ih
        have hl : i < ((List.range i).foldl (postCorrelateStep corr count_) h).length := by
          by_contra hc
          rw [List.getElem?_eq_none (by omega)] at ih
          exact absurd ih (by simp)
        have hg : ((List.range i).foldl (postCorrelateStep corr count_) h)[i] = m := by
          rw [List.getElem?_eq_getElem hl] at ih
          exact Option.some.inj ih
        simp [List.getElem?_set, hl, hg]
    · have hne : n ≠ i := fun h => hin h.symm
      rw [List.getElem?_set_ne hne, ih]
      have : (i < n + 1) ↔ (i < n) := by omega
      simp only [this]

theorem postCorrelate_count (s : ForTorCorrFunc) : s.postCorrelate.count_ = s.count_ := rfl

theorem postCorrelate_histogram_getElem? (s : ForTorCorrFunc) (i : Nat) (hi : i < s.nTimeBins_) :
    s.postCorrelate.histogram_[i]? =
      (s.histogram_[i]?).map (fun m => if s.count_.getD i 0 > 0 then
        (m.divCount (s.count_.getD i 0)) -
          outProduct (s.sumForces_.divCount s.forcesCount_)
            (s.sumTorques_.divCount s.torquesCount_)
        else M3Zero) := by
  show ((List.range s.nTimeBins_).foldl (postCorrelateStep _ s.count_) s.histogram_)[i]? = _
  rw [postCorrelateLoop_getElem?, if_pos hi]

/-! ### Normalisation -/

/-- C1: in exact arithmetic, when both running counts are non-zero, a bin `i` of
`[0, nTimeBins_)` with `count_[i] > 0` is set by `postCorrelate` to its old value divided
by `count_[i]` minus the outer product of the two means `sumForces_ / forcesCount_` and
`sumTorques_ / torquesCount_`, the sums being those held before the call. -/
theorem postCorrelate_normalises_bin (s : ForTorCorrFunc) (i : Nat)
    (H : Fin 3 → Fin 3 → ℚ) (F T : Fin 3 → ℚ) (n : Int)
    (hi : i < s.nTimeBins_)
    (hF : s.sumForces_ = Vector3d.ofRat F) (hT : s.sumTorques_ = Vector3d.ofRat T)
    (hH : s.histogram_[i]? = some (Mat3x3d.ofRat H))
    (hn : s.count_[i]? = some n) (hpos : 0 < n)
    (hfc : s.forcesCount_ ≠ 0) (htc : s.torquesCount_ ≠ 0) :
    s.postCorrelate.histogram_[i]? =
      some (Mat3x3d.ofRat (fun r c =>
        H r c / (n : ℚ) - (F r / (s.forcesCount_ : ℚ)) * (T c / (s.torquesCount_ : ℚ)))) := by
  have hne : n ≠ 0 := ne_of_gt hpos
  rw [postCorrelate_histogram_getElem? s i hi, hH, hF, hT]
  have hcd : s.count_.getD i 0 = n := by
    rw [List.getD_eq_getElem?_getD, hn]; rfl
  simp only [Option.map_some', hcd, gt_iff_lt, hpos, if_true]
  congr 1
  funext r c
  show RealType.sub (RealType.divCount (RealType.fin (H r c)) n)
      (RealType.mul (RealType.divCount (RealType.fin (F r)) s.forcesCount_)
        (RealType.divCount (RealType.fin (T c)) s.torquesCount_)) = _
  rw [RealType.divCount_fin _ _ hne, RealType.divCount_fin _ _ hfc,
    RealType.divCount_fin _ _ htc]
  rfl

/-- Witness for C1 on the four-frame scenario: the first components of the four bins
become 5/4, 5/12, -3/4 and -9/4. -/
theorem postCorrelate_normalises_bin_witness :
    (scenario.postCorrelate.histogram_[0]?).map (fun m => m 0 0) = some (RealType.fin (5 / 4)) ∧
    (scenario.postCorrelate.histogram_[1]?).map (fun m => m 0 0) = some (RealType.fin (5 / 12)) ∧
    (scenario.postCorrelate.histogram_[2]?).map (fun m => m 0 0) = some (RealType.fin (-3 / 4)) ∧
    (scenario.postCorrelate.histogram_[3]?).map (fun m => m 0 0) =
      some (RealType.fin (-9 / 4)) := by
  have h0 := postCorrelate_normalises_bin scenario 0 (axisTensor 30) (axisVector 10)
    (axisVector 10) 4 (by decide) rfl rfl rfl rfl (by decide) (by decide) (by decide)
  have h1 := postCorrelate_normalises_bin scenario 1 (axisTensor 20) (axisVector 10)
    (axisVector 10) 3 (by decide) rfl rfl rfl rfl (by decide) (by decide) (by decide)
  have h2 := postCorrelate_normalises_bin scenario 2 (axisTensor 11) (axisVector 10)
    (axisVector 10) 2 (by decide) rfl rfl rfl rfl (by decide) (by decide) (by decide)
  have h3 := postCorrelate_normalises_bin scenario 3 (axisTensor 4) (axisVector 10)
    (axisVector 10) 1 (by decide) rfl rfl rfl rfl (by decide) (by decide) (by decide)
  rw [h0, h1, h2, h3]
  simp only [Option.map_some', Mat3x3d.ofRat, axisTensor, axisVector, scenario]
  norm_num

/-- C2: a bin `i` of `[0, nTimeBins_)` with `count_[i] == 0` holds the zero tensor after
`postCorrelate`, whatever it held before, its count is still `0`, and `postCorrelate`
changes no entry of `count_`. -/
theorem postCorrelate_empty_bin (s : ForTorCorrFunc) (i : Nat)
    (hi : i < s.nTimeBins_) (hh : i < s.histogram_.length)
    (hc : s.count_[i]? = some 0) :
    s.postCorrelate.histogram_[i]? = some M3Zero ∧
      s.postCorrelate.count_[i]? = some 0 ∧
      s.postCorrelate.count_ = s.count_ := by
  refine ⟨?_, ?_, rfl⟩
  · rw [postCorrelate_histogram_getElem? s i hi, List.getElem?_eq_getElem hh]
    have hcd : s.count_.getD i 0 = 0 := by
      rw [List.getD_eq_getElem?_getD, hc]; rfl
    simp only [Option.map_some', hcd, gt_iff_lt, lt_irrefl, if_false]
  · rw [postCorrelate_count, hc]

/-- Witness for C2: bin 4 of the widened scenario, which held a non-zero tensor. -/
theorem postCorrelate_empty_bin_witness :
    scenarioWide.histogram_[4]? = some (Mat3x3d.ofRat (axisTensor 7)) ∧
    scenarioWide.postCorrelate.histogram_[4]? = some M3Zero ∧
      scenarioWide.postCorrelate.count_[4]? = some 0 ∧
      scenarioWide.postCorrelate.count_ = scenarioWide.count_ :=
  ⟨rfl, postCorrelate_empty_bin scenarioWide 4 (by decide) (by decide) rfl⟩

/-- C3 (as stated) fails: on the freshly constructed state, whose running counts are
both zero, `postCorrelate` completes without any report, divides the sums by the zero
counts (the means become non-finite) and returns zeroed histogram values. -/
theorem postCorrelate_zero_count_counterexample :
    (ForTorCorrFunc.new 2 2 [M3Zero, M3Zero] [0, 0]).forcesCount_ = 0 ∧
    (ForTorCorrFunc.new 2 2 [M3Zero, M3Zero] [0, 0]).postCorrelate.histogram_ =
      [M3Zero, M3Zero] ∧
    (ForTorCorrFunc.new 2 2 [M3Zero, M3Zero] [0, 0]).postCorrelate.sumForces_ =
      (fun _ => RealType.nonfin) ∧
    (ForTorCorrFunc.new 2 2 [M3Zero, M3Zero] [0, 0]).postCorrelate.sumTorques_ =
      (fun _ => RealType.nonfin) :=
  ⟨rfl, rfl, rfl, rfl⟩

/-- C3 (as amended): when a running count is zero, `postCorrelate` still completes
and reports nothing: the mean of that side becomes non-finite (the sum is divided by the
zero count), every bin of `[0, nTimeBins_)` with a positive count becomes the non-finite
tensor, and every bin with a count that is not positive becomes the zero tensor. -/
theorem postCorrelate_zero_running_count (s : ForTorCorrFunc) (i : Nat) (m : Mat3x3d) (n : Int)
    (hz : s.forcesCount_ = 0 ∨ s.torquesCount_ = 0)
    (hi : i < s.nTimeBins_) (hH : s.histogram_[i]? = some m) (hn : s.count_[i]? = some n) :
    (s.forcesCount_ = 0 → s.postCorrelate.sumForces_ = fun _ => RealType.nonfin) ∧
    (s.torquesCount_ = 0 → s.postCorrelate.sumTorques_ = fun _ => RealType.nonfin) ∧
    (0 < n → s.postCorrelate.histogram_[i]? = some (fun _ _ => RealType.nonfin)) ∧
    (n ≤ 0 → s.postCorrelate.histogram_[i]? = some M3Zero) := by
  have hcd : s.count_.getD i 0 = n := by
    rw [List.getD_eq_getElem?_getD, hn]; rfl
  refine ⟨?_, ?_, ?_, ?_⟩
  · intro h0
    show s.sumForces_.divCount s.forcesCount_ = _
    funext k
    simp [Vector3d.divCount, h0]
  · intro h0
    show s.sumTorques_.divCount s.torquesCount_ = _
    funext k
    simp [Vector3d.divCount, h0]
  · intro hpos
    rw [postCorrelate_histogram_getElem? s i hi, hH]
    simp only [Option.map_some', hcd, gt_iff_lt, hpos, if_true]
    congr 1
    funext r c
    show (m.divCount n) r c - outProduct (s.sumForces_.divCount s.forcesCount_)
      (s.sumTorques_.divCount s.torquesCount_) r c = _
    rcases hz with h0 | h0 <;> simp [outProduct, Vector3d.divCount, h0]
  · intro hle
    rw [postCorrelate_histogram_getElem? s i hi, hH]
    have : ¬ (0 < n) := not_lt.mpr hle
    simp only [Option.map_some', hcd, gt_iff_lt, this, if_false]

/-- Witness for C3 (as amended) on a state without force samples: bin 0 (count 4)
becomes non-finite and bin 1 (count 0) becomes zero. -/
theorem postCorrelate_zero_running_count_witness :
    noForces.postCorrelate.sumForces_ = (fun _ => RealType.nonfin) ∧
    noForces.postCorrelate.histogram_[0]? = some (fun _ _ => RealType.nonfin) ∧
    noForces.postCorrelate.histogram_[1]? = some M3Zero :=
  ⟨(postCorrelate_zero_running_count noForces 0 _ 4 (Or.inl rfl) (by decide) rfl rfl).1 rfl,
   (postCorrelate_zero_running_count noForces 0 _ 4 (Or.inl rfl) (by decide) rfl rfl).2.2.1
     (by decide),
   (postCorrelate_zero_running_count noForces 1 _ 0 (Or.inl rfl) (by decide) rfl rfl).2.2.2
     (by decide)⟩

/-! ### Extractor calls -/

theorem rowLength_set_append {α : Type} (l : List (List α)) (f g : Nat) (row : List α) (v : α)
    (h : l[f]? = some row) :
    ((l.set f (row ++ [v])).getD g []).length =
      (l.getD g []).length + if f = g then 1 else 0 := by
  have hf : f < l.length := by
    by_contra hc
    rw [List.getElem?_eq_none (by omega)] at h
    exact absurd h (by simp)
  by_cases hfg : f = g
  · subst hfg
    simp [List.getD_eq_getElem?_getD, List.getElem?_set_self hf, h]
  · simp [List.getD_eq_getElem?_getD, List.getElem?_set_ne hfg, hfg]

theorem computeProperty1_some {s s1 : ForTorCorrFunc} {f r : Nat} {sd : StuntDouble}
    (h : s.computeProperty1 f sd = some (s1, r)) :
    ∃ row, s.forces_[f]? = some row ∧ r = row.length ∧
      s1.forces_ = s.forces_.set f (row ++ [sd.getA.mulVec sd.getFrc]) ∧
      s1.torques_ = s.torques_ ∧
      s1.sumForces_ = s.sumForces_ + sd.getA.mulVec sd.getFrc ∧
      s1.forcesCount_ = s.forcesCount_ + 1 ∧
      s1.sumTorques_ = s.sumTorques_ ∧ s1.torquesCount_ = s.torquesCount_ := by
  unfold computeProperty1 at h
  cases hrow : s.forces_[f]? with
  | none => rw [hrow] at h; exact absurd h (by simp)
  | some row =>
    rw [hrow] at h
    simp only [Option.some.injEq, Prod.mk.injEq] at h
    obtain ⟨h1, h2⟩ := h
    subst h1
    exact ⟨row, rfl, by simp [← h2], rfl, rfl, rfl, rfl, rfl, rfl⟩

theorem computeProperty2_some {s s1 : ForTorCorrFunc} {f r : Nat} {sd : StuntDouble}
    (h : s.computeProperty2 f sd = some (s1, r)) :
    ∃ row, s.torques_[f]? = some row ∧ r = row.length ∧
      s1.torques_ = s.torques_.set f (row ++ [sd.getA.mulVec sd.getTrq]) ∧
      s1.forces_ = s.forces_ ∧
      s1.sumTorques_ = s.sumTorques_ + sd.getA.mulVec sd.getTrq ∧
      s1.torquesCount_ = s.torquesCount_ + 1 ∧
      s1.sumForces_ = s.sumForces_ ∧ s1.forcesCount_ = s.forcesCount_ := by
  unfold computeProperty2 at h
  cases hrow : s.torques_[f]? with
  | none => rw [hrow] at h; exact absurd h (by simp)
  | some row =>
    rw [hrow] at h
    simp only [Option.some.injEq, Prod.mk.injEq] at h
    obtain ⟨h1, h2⟩ := h
    subst h1
    exact ⟨row, rfl, by simp [← h2], rfl, rfl, rfl, rfl, rfl, rfl⟩

theorem computeProperty1_defined (s : ForTorCorrFunc) (f : Nat) (sd : StuntDouble)
    (h : f < s.forces_.length) : ∃ s1 r, s.computeProperty1 f sd = some (s1, r) := by
  unfold computeProperty1
  rw [List.getElem?_eq_getElem h]
  exact ⟨_, _, rfl⟩

theorem computeProperty2_defined (s : ForTorCorrFunc) (f : Nat) (sd : StuntDouble)
    (h : f < s.torques_.length) : ∃ s1 r, s.computeProperty2 f sd = some (s1, r) := by
  unfold computeProperty2
  rw [List.getElem?_eq_getElem h]
  exact ⟨_, _, rfl⟩

theorem step_defined (s : ForTorCorrFunc) (c : Call)
    (h : c.frame < s.forces_.length ∧ c.frame < s.torques_.length) :
    ∃ s1 r, step s c = some (s1, r) := by
  cases c with
  | property1 f sd => exact computeProperty1_defined s f sd h.1
  | property2 f sd => exact computeProperty2_defined s f sd h.2

theorem step_lengths {s s1 : ForTorCorrFunc} {c : Call} {r : Nat}
    (h : step s c = some (s1, r)) :
    s1.forces_.length = s.forces_.length ∧ s1.torques_.length = s.torques_.length := by
  cases c with
  | property1 f sd =>
    obtain ⟨row, -, -, hf, ht, -⟩ := computeProperty1_some h
    rw [hf, ht]; simp
  | property2 f sd =>
    obtain ⟨row, -, -, ht, hf, -⟩ := computeProperty2_some h
    rw [hf, ht]; simp

theorem step_rowLength {s s1 : ForTorCorrFunc} {c : Call} {r : Nat}
    (h : step s c = some (s1, r)) (g : Nat) :
    (s1.forces_.getD g []).length =
        (s.forces_.getD g []).length + (if c.isProperty1On g then 1 else 0) ∧
      (s1.torques_.getD g []).length =
        (s.torques_.getD g []).length + (if c.isProperty2On g then 1 else 0) := by
  cases c with
  | property1 f sd =>
    obtain ⟨row, hrow, -, hf, ht, -⟩ := computeProperty1_some h
    rw [hf, ht, rowLength_set_append _ f g row _ hrow]
    simp [Call.isProperty1On, Call.isProperty2On]
  | property2 f sd =>
    obtain ⟨row, hrow, -, ht, hf, -⟩ := computeProperty2_some h
    rw [hf, ht, rowLength_set_append _ f g row _ hrow]
    simp [Call.isProperty1On, Call.isProperty2On]

theorem step_return {s s1 : ForTorCorrFunc} {c : Call} {r : Nat}
    (h : step s c = some (s1, r)) :
    (∀ f sd, c = Call.property1 f sd → r = (s.forces_.getD f []).length) ∧
      (∀ f sd, c = Call.property2 f sd → r = (s.torques_.getD f []).length) := by
  cases c with
  | property1 f sd =>
    obtain ⟨row, hrow, hr, -⟩ := computeProperty1_some h
    refine ⟨?_, fun _ _ hc => Call.noConfusion hc⟩
    intro f1 sd1 hc
    cases hc
    simp [List.getD_eq_getElem?_getD, hrow, hr]
  | property2 f sd =>
    obtain ⟨row, hrow, hr, -⟩ := computeProperty2_some h
    refine ⟨fun _ _ hc => Call.noConfusion hc, ?_⟩
    intro f1 sd1 hc
    cases hc
    simp [List.getD_eq_getElem?_getD, hrow, hr]

theorem run_cons_some {s s1 : ForTorCorrFunc} {c : Call} {cs : List Call} {r : Nat}
    (h : step s c = some (s1, r)) :
    run s (c :: cs) = (run s1 cs).map (fun p => (p.1, r :: p.2)) := by
  simp only [run, h]
  cases run s1 cs with
  | none => rfl
  | some p => rfl

/-- Every call sequence whose frames are in range runs to completion, and each returned
slot index is the size the frame's sequence had on entry. -/
theorem run_returns (calls : List Call) :
    ∀ s : ForTorCorrFunc,
      (∀ c ∈ calls, c.frame < s.forces_.length ∧ c.frame < s.torques_.length) →
      ∃ s1 rets, run s calls = some (s1, rets) ∧ rets.length = calls.length ∧
        ∀ k f sd,
          (calls[k]? = some (Call.property1 f sd) →
            rets[k]? = some ((s.forces_.getD f []).length +
              (calls.take k).countP (Call.isProperty1On f))) ∧
          (calls[k]? = some (Call.property2 f sd) →
            rets[k]? = some ((s.torques_.getD f []).length +
              (calls.take k).countP (Call.isProperty2On f))) := by
  induction calls with
  | nil =>
    intro s _
    exact ⟨s, [], rfl, rfl, fun k f sd => by simp⟩
  | cons c cs ih =>
    intro s hfr
    obtain ⟨s1, r, hstep⟩ := step_defined s c (hfr c (List.mem_cons_self _ _))
    obtain ⟨hl1, hl2⟩ := step_lengths hstep
    obtain ⟨s2, rs, hrun, hlen, hrets⟩ := ih s1 (fun c1 hc1 => by
      rw [hl1, hl2]; exact hfr c1 (List.mem_cons_of_mem _ hc1))
    refine ⟨s2, r :: rs, ?_, by simp [hlen], ?_⟩
    · rw [run_cons_some hstep, hrun]; rfl
    · intro k f sd
      cases k with
      | zero =>
        simp only [List.getElem?_cons_zero, Option.some.injEq, List.take_zero,
          List.countP_nil, Nat.add_zero]
        exact ⟨fun hc => (step_return hstep).1 f sd hc, fun hc => (step_return hstep).2 f sd hc⟩
      | succ k =>
        obtain ⟨h1, h2⟩ := hrets k f sd
        obtain ⟨g1, g2⟩ := step_rowLength hstep f
        simp only [List.getElem?_cons_succ, List.take_succ_cons, List.countP_cons]
        constructor
        · intro hc
          rw [h1 hc, g1]
          congr 1
          omega
        · intro hc
          rw [h2 hc, g2]
          congr 1
          omega

theorem storeSum_set_append (l : List (List Vector3d)) :
    ∀ (f : Nat) (row : List Vector3d) (v : Vector3d), l[f]? = some row →
      storeSum (l.set f (row ++ [v])) = storeSum l + v := by
  induction l with
  | nil => intro f row v h; exact absurd h (by simp)
  | cons a t ih =>
    intro f row v h
    cases f with
    | zero =>
      simp only [List.getElem?_cons_zero, Option.some.injEq] at h
      subst h
      simp only [storeSum, List.set_cons_zero, List.map_cons, List.sum_cons, List.sum_append,
        List.sum_nil, add_zero]
      exact add_right_comm _ _ _
    | succ k =>
      simp only [List.getElem?_cons_succ] at h
      have := ih k row v h
      simp only [storeSum, List.set_cons_succ, List.map_cons, List.sum_cons] at this ⊢
      rw [this, add_assoc]

theorem storeCount_set_append (l : List (List Vector3d)) :
    ∀ (f : Nat) (row : List Vector3d) (v : Vector3d), l[f]? = some row →
      storeCount (l.set f (row ++ [v])) = storeCount l + 1 := by
  induction l with
  | nil => intro f row v h; exact absurd h (by simp)
  | cons a t ih =>
    intro f row v h
    cases f with
    | zero =>
      simp only [List.getElem?_cons_zero, Option.some.injEq] at h
      subst h
      simp only [storeCount, List.set_cons_zero, List.map_cons, List.sum_cons,
        List.length_append, List.length_singleton]
      omega
    | succ k =>
      simp only [List.getElem?_cons_succ] at h
      have := ih k row v h
      simp only [storeCount, List.set_cons_succ, List.map_cons, List.sum_cons] at this ⊢
      omega

theorem step_runningMeans {s s1 : ForTorCorrFunc} {c : Call} {r : Nat}
    (h : step s c = some (s1, r)) (hinv : RunningMeans s) : RunningMeans s1 := by
  obtain ⟨i1, i2, i3, i4⟩ := hinv
  cases c with
  | property1 f sd =>
    obtain ⟨row, hrow, -, hf, ht, hs, hn, hs2, hn2⟩ := computeProperty1_some h
    refine ⟨?_, ?_, ?_, ?_⟩
    · rw [hs, hf, storeSum_set_append _ f row _ hrow, i1]
    · rw [hn, hf, storeCount_set_append _ f row _ hrow, i2]; push_cast; rfl
    · rw [hs2, ht, i3]
    · rw [hn2, ht, i4]
  | property2 f sd =>
    obtain ⟨row, hrow, -, ht, hf, hs, hn, hs2, hn2⟩ := computeProperty2_some h
    refine ⟨?_, ?_, ?_, ?_⟩
    · rw [hs2, hf, i1]
    · rw [hn2, hf, i2]
    · rw [hs, ht, storeSum_set_append _ f row _ hrow, i3]
    · rw [hn, ht, storeCount_set_append _ f row _ hrow, i4]; push_cast; rfl

theorem run_runningMeans (calls : List Call) :
    ∀ (s s1 : ForTorCorrFunc) (rets : List Nat), run s calls = some (s1, rets) →
      RunningMeans s → RunningMeans s1 := by
  induction calls with
  | nil =>
    intro s s1 rets h hinv
    simp only [run, Option.some.injEq, Prod.mk.injEq] at h
    rw [← h.1]; exact hinv
  | cons c cs ih =>
    intro s s1 rets h hinv
    cases hstep : step s c with
    | none => simp [run, hstep] at h
    | some p =>
      obtain ⟨s2, r⟩ := p
      rw [run_cons_some hstep] at h
      cases hrun : run s2 cs with
      | none => rw [hrun] at h; exact absurd h (by simp)
      | some q =>
        obtain ⟨s3, rs⟩ := q
        rw [hrun] at h
        simp only [Option.map_some', Option.some.injEq, Prod.mk.injEq] at h
        rw [← h.1]
        exact ih s2 s3 rs hrun (step_runningMeans hstep hinv)

theorem new_runningMeans (nFrames_ nTimeBins_ : Nat) (histogram_ : List Mat3x3d)
    (count_ : List Int) :
    RunningMeans (ForTorCorrFunc.new nFrames_ nTimeBins_ histogram_ count_) := by
  have h1 : ∀ n : Nat, storeSum (List.replicate n []) = V3Zero := by
    intro n
    induction n with
    | zero => rfl
    | succ n ih =>
      simp only [storeSum, List.replicate_succ, List.map_cons, List.sum_cons, List.sum_nil,
        zero_add] at ih ⊢
      exact ih
  have h2 : ∀ n : Nat, storeCount (List.replicate n []) = 0 := by
    intro n
    induction n with
    | zero => rfl
    | succ n ih =>
      simp only [storeCount, List.replicate_succ, List.map_cons, List.sum_cons, List.length_nil,
        zero_add] at ih ⊢
      exact ih
  refine ⟨?_, ?_, ?_, ?_⟩
  · show V3Zero = storeSum (List.replicate nFrames_ []); rw [h1]
  · show (0 : Int) = (storeCount (List.replicate nFrames_ []) : Int); rw [h2]; rfl
  · show V3Zero = storeSum (List.replicate nFrames_ []); rw [h1]
  · show (0 : Int) = (storeCount (List.replicate nFrames_ []) : Int); rw [h2]; rfl

theorem computeProperty1In_exact (s : ForTorCorrFunc) (f : Nat) (sd : StuntDouble)
    (h : s.forcesCount_ ≠ intMax) :
    s.computeProperty1In Arithmetic.exact f sd = s.computeProperty1 f sd := by
  unfold computeProperty1In computeProperty1
  cases s.forces_[f]? with
  | none => rfl
  | some row =>
    simp only [h, if_false]
    rfl

theorem computeProperty2In_exact (s : ForTorCorrFunc) (f : Nat) (sd : StuntDouble)
    (h : s.torquesCount_ ≠ intMax) :
    s.computeProperty2In Arithmetic.exact f sd = s.computeProperty2 f sd := by
  unfold computeProperty2In computeProperty2
  cases s.torques_[f]? with
  | none => rfl
  | some row =>
    simp only [h, if_false]
    rfl

theorem computeProperty1In_count (ar : Arithmetic) {s s1 : ForTorCorrFunc} {f r : Nat}
    {sd : StuntDouble} (h : s.computeProperty1In ar f sd = some (s1, r)) :
    s.forcesCount_ ≠ intMax := by
  intro hc
  unfold computeProperty1In at h
  cases hrow : s.forces_[f]? with
  | none => rw [hrow] at h; exact absurd h (by simp)
  | some row =>
    rw [hrow] at h
    simp only [hc, if_true] at h
    exact absurd h (by simp)

theorem computeProperty2In_count (ar : Arithmetic) {s s1 : ForTorCorrFunc} {f r : Nat}
    {sd : StuntDouble} (h : s.computeProperty2In ar f sd = some (s1, r)) :
    s.torquesCount_ ≠ intMax := by
  intro hc
  unfold computeProperty2In at h
  cases hrow : s.torques_[f]? with
  | none => rw [hrow] at h; exact absurd h (by simp)
  | some row =>
    rw [hrow] at h
    simp only [hc, if_true] at h
    exact absurd h (by simp)

/-- In exact arithmetic, and while neither count reaches `INT_MAX`, the machine model of
a call sequence is the exact one. -/
theorem runIn_exact_eq_run (calls : List Call) :
    ∀ s : ForTorCorrFunc,
      s.forcesCount_ + (calls.countP Call.isProperty1 : Int) ≤ intMax →
      s.torquesCount_ + (calls.countP Call.isProperty2 : Int) ≤ intMax →
      runIn Arithmetic.exact s calls = run s calls := by
  induction calls with
  | nil => intro s _ _; rfl
  | cons c cs ih =>
    intro s h1 h2
    have hstep : stepIn Arithmetic.exact s c = step s c := by
      cases c with
      | property1 f sd =>
        apply computeProperty1In_exact
        intro hc
        simp only [List.countP_cons, Call.isProperty1, if_true] at h1
        push_cast at h1
        omega
      | property2 f sd =>
        apply computeProperty2In_exact
        intro hc
        simp only [List.countP_cons, Call.isProperty2, if_true] at h2
        push_cast at h2
        omega
    simp only [runIn, run, hstep]
    cases hs : step s c with
    | none => rfl
    | some p =>
      obtain ⟨s1, r⟩ := p
      have hrec : runIn Arithmetic.exact s1 cs = run s1 cs := by
        cases c with
        | property1 f sd =>
          obtain ⟨row, -, -, -, -, -, hn, -, hn2⟩ := computeProperty1_some hs
          apply ih
          · simp only [List.countP_cons, Call.isProperty1, if_true] at h1
            push_cast at h1
            omega
          · simp only [List.countP_cons, Call.isProperty2] at h2
            simp only [Bool.false_eq_true, if_false, Nat.add_zero] at h2
            omega
        | property2 f sd =>
          obtain ⟨row, -, -, -, -, -, hn, -, hn2⟩ := computeProperty2_some hs
          apply ih
          · simp only [List.countP_cons, Call.isProperty1] at h1
            simp only [Bool.false_eq_true, if_false, Nat.add_zero] at h1
            omega
          · simp only [List.countP_cons, Call.isProperty2, if_true] at h2
            push_cast at h2
            omega
      simp only [hrec]

/-- Whatever the arithmetic, `k` calls of `computeProperty1` on frame 0 that would take
the count from its present value to `INT_MAX + 1` have no defined result. -/
theorem runIn_count_overflow (ar : Arithmetic) (sd : StuntDouble) (k : Nat) :
    ∀ s : ForTorCorrFunc, 0 < s.forces_.length → 1 ≤ k →
      s.forcesCount_ + (k : Int) = intMax + 1 →
      runIn ar s (List.replicate k (Call.property1 0 sd)) = none := by
  induction k with
  | zero => intro s _ hk _; omega
  | succ k ih =>
    intro s hlen _ hcount
    rw [List.replicate_succ]
    by_cases hk : k = 0
    · subst hk
      have hc : s.forcesCount_ = intMax := by
        push_cast at hcount
        omega
      have hstep : stepIn ar s (Call.property1 0 sd) = none := by
        show s.computeProperty1In ar 0 sd = none
        unfold computeProperty1In
        rw [List.getElem?_eq_getElem hlen]
        simp only [hc, if_true]
      simp only [runIn, hstep]
    · have hc : s.forcesCount_ ≠ intMax := by
        intro hc
        push_cast at hcount
        omega
      cases hstep : stepIn ar s (Call.property1 0 sd) with
      | none => simp only [runIn, hstep]
      | some p =>
        obtain ⟨s1, r⟩ := p
        have hstep1 : s.computeProperty1In ar 0 sd = some (s1, r) := hstep
        unfold computeProperty1In at hstep1
        rw [List.getElem?_eq_getElem hlen] at hstep1
        simp only [hc, if_false, Option.some.injEq, Prod.mk.injEq] at hstep1
        obtain ⟨hs1, -⟩ := hstep1
        have hlen1 : 0 < s1.forces_.length := by
          rw [← hs1]
          simpa using hlen
        have hcount1 : s1.forcesCount_ + (k : Int) = intMax + 1 := by
          rw [← hs1]
          show s.forcesCount_ + 1 + (k : Int) = intMax + 1
          push_cast at hcount
          omega
        have hrec := ih s1 hlen1 (by omega) hcount1
        simp only [runIn, hstep, hrec]

/-- C6 (as stated) fails on the machine. With binary64 reals, three force extractions
of `10^16` (frame 0), `1` (frame 1) and `-10^16` (frame 0) leave the running sum at `0`,
because `10^16 + 1` rounds to `10^16`, while the stored vectors sum to `1`, in binary64
frame by frame as well as exactly. And `2^31` extractions on one side, all on frame 0 of a
one-frame store, have no defined final count: the last one overflows the 32-bit
`forcesCount_`. -/
theorem running_mean_counterexample :
    (runIn Arithmetic.binary64 (ForTorCorrFunc.new 2 1 [M3Zero] [0]) roundingCalls).map
        (fun p => (p.1.sumForces_ 0, storeSumIn Arithmetic.binary64 p.1.forces_ 0,
          storeSum p.1.forces_ 0)) =
      some (RealType.fin 0, RealType.fin 1, RealType.fin 1) ∧
    runIn Arithmetic.binary64 (ForTorCorrFunc.new 1 1 [M3Zero] [0])
      (List.replicate 2147483648 (Call.property1 0 sdOne)) = none := by
  refine ⟨by decide!, ?_⟩
  exact runIn_count_overflow Arithmetic.binary64 sdOne 2147483648
    (ForTorCorrFunc.new 1 1 [M3Zero] [0]) (by decide) (by decide) (by decide)

/-- C6 (as amended): in exact arithmetic, every call sequence on frames below `nFrames_`
with fewer than `2^31` calls of each extractor runs from the constructed state to a state
in which `sumForces_` is the sum of all vectors stored in `forces_` and `forcesCount_`
their number, and likewise for the torque side; each extractor call that does not
overflow its count adds exactly the extracted value to its own side's sum and 1 to its own
side's count and leaves the other side's sum and count unchanged. -/
theorem running_mean_invariant (nFrames_ nTimeBins_ : Nat) (histogram_ : List Mat3x3d)
    (count_ : List Int) (calls : List Call) (hfr : ∀ c ∈ calls, c.frame < nFrames_)
    (h1 : calls.countP Call.isProperty1 < 2147483648)
    (h2 : calls.countP Call.isProperty2 < 2147483648) :
    (∃ s1 rets,
      runIn Arithmetic.exact (ForTorCorrFunc.new nFrames_ nTimeBins_ histogram_ count_) calls
        = some (s1, rets) ∧
      s1.sumForces_ = storeSum s1.forces_ ∧
      s1.forcesCount_ = (storeCount s1.forces_ : Int) ∧
      s1.sumTorques_ = storeSum s1.torques_ ∧
      s1.torquesCount_ = (storeCount s1.torques_ : Int)) ∧
    (∀ (s s1 : ForTorCorrFunc) (f r : Nat) (sd : StuntDouble),
      s.computeProperty1In Arithmetic.exact f sd = some (s1, r) →
        s1.sumForces_ = s.sumForces_ + sd.getA.mulVec sd.getFrc ∧
        s1.forcesCount_ = s.forcesCount_ + 1 ∧
        s1.sumTorques_ = s.sumTorques_ ∧ s1.torquesCount_ = s.torquesCount_) ∧
    (∀ (s s1 : ForTorCorrFunc) (f r : Nat) (sd : StuntDouble),
      s.computeProperty2In Arithmetic.exact f sd = some (s1, r) →
        s1.sumTorques_ = s.sumTorques_ + sd.getA.mulVec sd.getTrq ∧
        s1.torquesCount_ = s.torquesCount_ + 1 ∧
        s1.sumForces_ = s.sumForces_ ∧ s1.forcesCount_ = s.forcesCount_) := by
  refine ⟨?_, ?_, ?_⟩
  · obtain ⟨s1, rets, hrun, -, -⟩ :=
      run_returns calls (ForTorCorrFunc.new nFrames_ nTimeBins_ histogram_ count_)
        (fun c hc => by
          have := hfr c hc
          simpa [ForTorCorrFunc.new] using this)
    have hagree : runIn Arithmetic.exact
        (ForTorCorrFunc.new nFrames_ nTimeBins_ histogram_ count_) calls =
        run (ForTorCorrFunc.new nFrames_ nTimeBins_ histogram_ count_) calls := by
      apply runIn_exact_eq_run
      · show (0 : Int) + (calls.countP Call.isProperty1 : Int) ≤ 2147483647
        omega
      · show (0 : Int) + (calls.countP Call.isProperty2 : Int) ≤ 2147483647
        omega
    rw [hagree]
    exact ⟨s1, rets, hrun, run_runningMeans calls _ s1 rets hrun (new_runningMeans _ _ _ _)⟩
  · intro s s1 f r sd h
    rw [computeProperty1In_exact s f sd (computeProperty1In_count _ h)] at h
    obtain ⟨row, -, -, -, -, hs, hn, hs2, hn2⟩ := computeProperty1_some h
    exact ⟨hs, hn, hs2, hn2⟩
  · intro s s1 f r sd h
    rw [computeProperty2In_exact s f sd (computeProperty2In_count _ h)] at h
    obtain ⟨row, -, -, -, -, hs, hn, hs2, hn2⟩ := computeProperty2_some h
    exact ⟨hs, hn, hs2, hn2⟩

/-- Witness for C6 (as amended): after the five demonstration calls the force side holds
three vectors and the torque side two. -/
theorem running_mean_invariant_witness :
    (∃ s1 rets,
      runIn Arithmetic.exact (ForTorCorrFunc.new 2 1 [M3Zero] [0]) demoCalls
        = some (s1, rets) ∧
      s1.sumForces_ = storeSum s1.forces_ ∧
      s1.forcesCount_ = (storeCount s1.forces_ : Int) ∧
      s1.sumTorques_ = storeSum s1.torques_ ∧
      s1.torquesCount_ = (storeCount s1.torques_ : Int)) ∧
    (runIn Arithmetic.exact (ForTorCorrFunc.new 2 1 [M3Zero] [0]) demoCalls).map
      (fun p => (p.1.forcesCount_, p.1.torquesCount_)) = some (3, 2) :=
  ⟨(running_mean_invariant 2 1 [M3Zero] [0] demoCalls (by decide) (by decide)
    (by decide)).1, rfl⟩

/-! ### Stored samples stay in place -/

theorem sample_set_append (l : List (List Vector3d)) (f : Nat) (row : List Vector3d)
    (v : Vector3d) (h : l[f]? = some row) :
    sample (l.set f (row ++ [v])) f row.length = some v ∧
      (∀ g, g ≠ f → (l.set f (row ++ [v]))[g]? = l[g]?) ∧
      (l.set f (row ++ [v]))[f]? = some (row ++ [v]) ∧
      ∀ g j w, sample l g j = some w → sample (l.set f (row ++ [v])) g j = some w := by
  have hf : f < l.length := by
    by_contra hc
    rw [List.getElem?_eq_none (by omega)] at h
    exact absurd h (by simp)
  have hset : (l.set f (row ++ [v]))[f]? = some (row ++ [v]) := List.getElem?_set_self hf
  refine ⟨?_, ?_, hset, ?_⟩
  · simp [sample, hset]
  · intro g hg
    exact List.getElem?_set_ne (fun h => hg h.symm)
  · intro g j w hw
    by_cases hfg : f = g
    · subst hfg
      simp only [sample, h] at hw
      simp only [sample, hset]
      have hj : j < row.length := by
        by_contra hc
        rw [List.getElem?_eq_none (by omega)] at hw
        exact absurd hw (by simp)
      rw [List.getElem?_append_left hj]
      exact hw
    · simp only [sample, List.getElem?_set_ne hfg]
      exact hw

theorem step_sample {s s1 : ForTorCorrFunc} {c : Call} {r : Nat}
    (h : step s c = some (s1, r)) :
    (∀ g j w, sample s.forces_ g j = some w → sample s1.forces_ g j = some w) ∧
    (∀ g j w, sample s.torques_ g j = some w → sample s1.torques_ g j = some w) ∧
    (∀ f sd, c = Call.property1 f sd →
      sample s1.forces_ f r = some (sd.getA.mulVec sd.getFrc)) ∧
    (∀ f sd, c = Call.property2 f sd →
      sample s1.torques_ f r = some (sd.getA.mulVec sd.getTrq)) := by
  cases c with
  | property1 f sd =>
    obtain ⟨row, hrow, hr, hf, ht, -⟩ := computeProperty1_some h
    obtain ⟨a1, -, -, a4⟩ := sample_set_append s.forces_ f row (sd.getA.mulVec sd.getFrc) hrow
    refine ⟨?_, ?_, ?_, fun _ _ hc => Call.noConfusion hc⟩
    · rw [hf]; exact a4
    · rw [ht]; exact fun _ _ _ hw => hw
    · intro f1 sd1 hc
      cases hc
      rw [hf, hr]; exact a1
  | property2 f sd =>
    obtain ⟨row, hrow, hr, ht, hf, -⟩ := computeProperty2_some h
    obtain ⟨a1, -, -, a4⟩ := sample_set_append s.torques_ f row (sd.getA.mulVec sd.getTrq) hrow
    refine ⟨?_, ?_, fun _ _ hc => Call.noConfusion hc, ?_⟩
    · rw [hf]; exact fun _ _ _ hw => hw
    · rw [ht]; exact a4
    · intro f1 sd1 hc
      cases hc
      rw [ht, hr]; exact a1

theorem run_cases {s s2 : ForTorCorrFunc} {c : Call} {cs : List Call} {rets : List Nat}
    (h : run s (c :: cs) = some (s2, rets)) :
    ∃ s1 r rs, step s c = some (s1, r) ∧ run s1 cs = some (s2, rs) ∧ rets = r :: rs := by
  cases hstep : step s c with
  | none => simp [run, hstep] at h
  | some p =>
    obtain ⟨s1, r⟩ := p
    rw [run_cons_some hstep] at h
    cases hrun : run s1 cs with
    | none => rw [hrun] at h; exact absurd h (by simp)
    | some q =>
      obtain ⟨s3, rs⟩ := q
      rw [hrun] at h
      simp only [Option.map_some', Option.some.injEq, Prod.mk.injEq] at h
      exact ⟨s1, r, rs, rfl, by rw [← h.1]; exact hrun, h.2.symm⟩

theorem run_sample_mono (calls : List Call) :
    ∀ (s s1 : ForTorCorrFunc) (rets : List Nat), run s calls = some (s1, rets) →
      (∀ g j w, sample s.forces_ g j = some w → sample s1.forces_ g j = some w) ∧
      (∀ g j w, sample s.torques_ g j = some w → sample s1.torques_ g j = some w) := by
  induction calls with
  | nil =>
    intro s s1 rets h
    simp only [run, Option.some.injEq, Prod.mk.injEq] at h
    rw [← h.1]
    exact ⟨fun _ _ _ hw => hw, fun _ _ _ hw => hw⟩
  | cons c cs ih =>
    intro s s2 rets h
    obtain ⟨s1, r, rs, hstep, hrun, -⟩ := run_cases h
    obtain ⟨m1, m2, -, -⟩ := step_sample hstep
    obtain ⟨n1, n2⟩ := ih s1 s2 rs hrun
    exact ⟨fun g j w hw => n1 g j w (m1 g j w hw), fun g j w hw => n2 g j w (m2 g j w hw)⟩

theorem run_stores (calls : List Call) :
    ∀ (s s1 : ForTorCorrFunc) (rets : List Nat), run s calls = some (s1, rets) →
      ∀ (k f id : Nat) (sd : StuntDouble), rets[k]? = some id →
        (calls[k]? = some (Call.property1 f sd) →
          sample s1.forces_ f id = some (sd.getA.mulVec sd.getFrc)) ∧
        (calls[k]? = some (Call.property2 f sd) →
          sample s1.torques_ f id = some (sd.getA.mulVec sd.getTrq)) := by
  induction calls with
  | nil =>
    intro s s1 rets h k f id sd _
    simp
  | cons c cs ih =>
    intro s s2 rets h k f id sd hid
    obtain ⟨s1, r, rs, hstep, hrun, hrets⟩ := run_cases h
    subst hrets
    cases k with
    | zero =>
      simp only [List.getElem?_cons_zero, Option.some.injEq] at hid ⊢
      subst hid
      obtain ⟨-, -, p1, p2⟩ := step_sample hstep
      obtain ⟨n1, n2⟩ := run_sample_mono cs s1 s2 rs hrun
      exact ⟨fun hc => n1 _ _ _ (p1 f sd hc), fun hc => n2 _ _ _ (p2 f sd hc)⟩
    | succ k =>
      simp only [List.getElem?_cons_succ] at hid ⊢
      exact ih s1 s2 rs hrun k f id sd hid

theorem calcCorrVal_of_samples (s : ForTorCorrFunc) (f1 f2 id1 id2 : Nat) (a b : Vector3d)
    (ha : sample s.forces_ f1 id1 = some a) (hb : sample s.torques_ f2 id2 = some b) :
    s.calcCorrVal f1 f2 id1 id2 = some (outProduct a b) := by
  unfold sample at ha hb
  unfold calcCorrVal
  cases hf : s.forces_[f1]? with
  | none => rw [hf] at ha; exact absurd ha (by simp)
  | some fr =>
    cases ht : s.torques_[f2]? with
    | none => rw [ht] at hb; exact absurd hb (by simp)
    | some tr =>
      rw [hf] at ha
      rw [ht] at hb
      simp only at ha hb
      simp only [ha, hb]

/-- C10: if, in a run of extractor calls, a call `computeProperty1(f1, sd1)` returned
`id1` and a call `computeProperty2(f2, sd2)` returned `id2`, then in the final state, after
all further calls, both lookups of `calcCorrVal(f1, f2, id1, id2)` are in bounds and the
value is the outer product of the two values extracted by those calls. An extractor call
appends to its own frame's sequence on its own side and leaves every other sequence, and
every stored entry, unchanged. -/
theorem slot_indices_stay_valid (s s1 : ForTorCorrFunc) (calls : List Call) (rets : List Nat)
    (hrun : run s calls = some (s1, rets))
    (k1 k2 f1 f2 id1 id2 : Nat) (sd1 sd2 : StuntDouble)
    (hc1 : calls[k1]? = some (Call.property1 f1 sd1)) (hr1 : rets[k1]? = some id1)
    (hc2 : calls[k2]? = some (Call.property2 f2 sd2)) (hr2 : rets[k2]? = some id2) :
    s1.calcCorrVal f1 f2 id1 id2 =
        some (outProduct (sd1.getA.mulVec sd1.getFrc) (sd2.getA.mulVec sd2.getTrq)) ∧
    (∀ (t t1 : ForTorCorrFunc) (f r : Nat) (sd : StuntDouble),
      t.computeProperty1 f sd = some (t1, r) →
        t1.torques_ = t.torques_ ∧
        (∀ g, g ≠ f → t1.forces_[g]? = t.forces_[g]?) ∧
        (∃ row, t.forces_[f]? = some row ∧
          t1.forces_[f]? = some (row ++ [sd.getA.mulVec sd.getFrc])) ∧
        (∀ g j w, sample t.forces_ g j = some w → sample t1.forces_ g j = some w)) ∧
    (∀ (t t1 : ForTorCorrFunc) (f r : Nat) (sd : StuntDouble),
      t.computeProperty2 f sd = some (t1, r) →
        t1.forces_ = t.forces_ ∧
        (∀ g, g ≠ f → t1.torques_[g]? = t.torques_[g]?) ∧
        (∃ row, t.torques_[f]? = some row ∧
          t1.torques_[f]? = some (row ++ [sd.getA.mulVec sd.getTrq])) ∧
        (∀ g j w, sample t.torques_ g j = some w → sample t1.torques_ g j = some w)) := by
  refine ⟨?_, ?_, ?_⟩
  · exact calcCorrVal_of_samples s1 f1 f2 id1 id2 _ _
      ((run_stores calls s s1 rets hrun k1 f1 id1 sd1 hr1).1 hc1)
      ((run_stores calls s s1 rets hrun k2 f2 id2 sd2 hr2).2 hc2)
  · intro t t1 f r sd h
    obtain ⟨row, hrow, -, hf, ht, -⟩ := computeProperty1_some h
    obtain ⟨-, a2, a3, a4⟩ := sample_set_append t.forces_ f row (sd.getA.mulVec sd.getFrc) hrow
    rw [hf]
    exact ⟨ht, a2, ⟨row, hrow, a3⟩, a4⟩
  · intro t t1 f r sd h
    obtain ⟨row, hrow, -, ht, hf, -⟩ := computeProperty2_some h
    obtain ⟨-, a2, a3, a4⟩ := sample_set_append t.torques_ f row (sd.getA.mulVec sd.getTrq) hrow
    rw [ht]
    exact ⟨hf, a2, ⟨row, hrow, a3⟩, a4⟩

/-- Witness for C10: the first call (slot 0 of the force side of frame 0) and the last
call (slot 1 of the torque side of frame 0) of the demonstration run. -/
theorem slot_indices_stay_valid_witness :
    demoFinal.calcCorrVal 0 0 0 1 =
      some (outProduct (sdOne.getA.mulVec sdOne.getFrc) (sdTwo.getA.mulVec sdTwo.getTrq)) :=
  (slot_indices_stay_valid (ForTorCorrFunc.new 2 1 [M3Zero] [0]) demoFinal demoCalls
    [0, 0, 0, 1, 1] rfl 0 4 0 0 0 1 sdOne sdTwo rfl rfl rfl rfl).1

/-! ### The combine operator -/

theorem sum_map_ofRat (L : List (Fin 3 → ℚ)) :
    (L.map Vector3d.ofRat).sum = Vector3d.ofRat (fun i => (L.map (fun v => v i)).sum) := by
  induction L with
  | nil => rfl
  | cons v t ih =>
    simp only [List.map_cons, List.sum_cons, ih]
    rfl

theorem storeSum_ofRat (samples : List (List (Fin 3 → ℚ))) :
    storeSum (samples.map (List.map Vector3d.ofRat)) =
      Vector3d.ofRat (fun i => (samples.flatten.map (fun v => v i)).sum) := by
  induction samples with
  | nil => rfl
  | cons row t ih =>
    simp only [storeSum, List.map_cons, List.sum_cons, List.flatten_cons, List.map_append,
      List.sum_append] at ih ⊢
    rw [ih, sum_map_ofRat]
    rfl

theorem storeCount_ofRat (samples : List (List (Fin 3 → ℚ))) :
    storeCount (samples.map (List.map Vector3d.ofRat)) = samples.flatten.length := by
  induction samples with
  | nil => rfl
  | cons row t ih =>
    simp only [storeCount, List.map_cons, List.sum_cons, List.flatten_cons, List.length_append,
      List.length_map] at ih ⊢
    rw [ih]

theorem map_range_getElem? {α β : Type} (g : Option α → β) (l : List α) :
    (List.range l.length).map (fun i => g l[i]?) = l.map (fun x => g (some x)) := by
  induction l with
  | nil => rfl
  | cons a t ih =>
    rw [List.length_cons, List.range_succ_eq_map, List.map_cons, List.map_map, List.map_cons,
      ← ih]
    congr 1
    · rw [List.getElem?_cons_zero]
    · apply List.map_congr_left
      intro i _
      show g (a :: t)[i + 1]? = g t[i]?
      rw [List.getElem?_cons_succ]

theorem sum_map_outer_ofRat (L : List (Fin 3 → ℚ)) :
    ((L.map Vector3d.ofRat).map (fun x => outProduct x x)).sum =
      Mat3x3d.ofRat (fun r c => (L.map (fun v => v r * v c)).sum) := by
  induction L with
  | nil => rfl
  | cons v t ih =>
    simp only [List.map_cons, List.sum_cons, ih]
    rfl

theorem zeroLagSum_ofRat (s : ForTorCorrFunc) (samples : List (List (Fin 3 → ℚ)))
    (hF : s.forces_ = samples.map (List.map Vector3d.ofRat)) (hT : s.torques_ = s.forces_) :
    zeroLagSum s = Mat3x3d.ofRat (fun r c => (samples.flatten.map (fun v => v r * v c)).sum) := by
  have hinner : ∀ f, ((List.range (s.forces_.getD f []).length).map (fun i =>
      (s.calcCorrVal f f i i).getD M3Zero)).sum =
      (fun o : Option (List Vector3d) =>
        ((o.getD []).map (fun x => outProduct x x)).sum) s.forces_[f]? := by
    intro f
    have hcalc : ∀ i, (s.calcCorrVal f f i i).getD M3Zero =
        (fun o : Option Vector3d => match o with
          | some x => outProduct x x
          | none => M3Zero) (s.forces_.getD f [])[i]? := by
      intro i
      unfold calcCorrVal
      rw [hT, List.getD_eq_getElem?_getD]
      cases hrow : s.forces_[f]? with
      | none => simp
      | some row =>
        cases hx : row[i]? with
        | none => simp [hx]
        | some x => simp [hx]
    simp only [hcalc]
    refine (congrArg List.sum (map_range_getElem? (fun o : Option Vector3d => match o with
          | some x => outProduct x x
          | none => M3Zero) (s.forces_.getD f []))).trans ?_
    rw [List.getD_eq_getElem?_getD]
  unfold zeroLagSum
  simp only [hinner]
  refine (congrArg List.sum (map_range_getElem? (fun o : Option (List Vector3d) =>
        ((o.getD []).map (fun x => outProduct x x)).sum) s.forces_)).trans ?_
  simp only [Option.getD_some]
  rw [hF]
  clear hinner hF hT
  induction samples with
  | nil => rfl
  | cons row t ih =>
    simp only [List.map_cons, List.sum_cons, List.flatten_cons, List.map_append,
      List.sum_append] at ih ⊢
    rw [ih, sum_map_outer_ofRat]
    rfl

theorem sum_centered (L : List (Fin 3 → ℚ)) (a b : ℚ) (r c : Fin 3) :
    (L.map (fun v => (v r - a) * (v c - b))).sum =
      (L.map (fun v => v r * v c)).sum - b * (L.map (fun v => v r)).sum
        - a * (L.map (fun v => v c)).sum + (L.length : ℚ) * a * b := by
  induction L with
  | nil => simp
  | cons v t ih =>
    simp only [List.map_cons, List.sum_cons, List.length_cons, ih]
    push_cast
    ring

theorem covarianceTensor_eq (L : List (Fin 3 → ℚ)) (hN : 0 < L.length) :
    covarianceTensor L = fun r c => meanOuter L r c - meanVector L r * meanVector L c := by
  funext r c
  have hne : (L.length : ℚ) ≠ 0 := by
    exact_mod_cast (Nat.pos_iff_ne_zero.mp hN)
  unfold covarianceTensor
  rw [sum_centered]
  unfold meanOuter meanVector
  field_simp
  ring

/-- C4: zero-lag autocorrelation identity in exact arithmetic. Take a state built from
the constructed state by extractor calls in which both sides hold the same `N > 0` rational
samples (so the running sums are equal and both counts are `N`), and let bin 0 hold the sum
of `calcCorrVal(f, f, i, i)` over all stored `(f, i)` with `count_[0] == N`. Then
`postCorrelate` sets `histogram_[0]` to the population covariance tensor of the samples,
`(1/N) * sum of outProduct(v - m, v - m)` with `m` the mean, and this tensor equals the mean
of `outProduct(v, v)` minus `outProduct(m, m)`. -/
theorem zero_lag_autocorrelation (nFrames_ nTimeBins_ : Nat) (histogram_ : List Mat3x3d)
    (count_ : List Int) (calls : List Call) (s1 : ForTorCorrFunc) (rets : List Nat)
    (hrun : run (ForTorCorrFunc.new nFrames_ nTimeBins_ histogram_ count_) calls
      = some (s1, rets))
    (samples : List (List (Fin 3 → ℚ)))
    (hF : s1.forces_ = samples.map (List.map Vector3d.ofRat)) (hT : s1.torques_ = s1.forces_)
    (hN : 0 < samples.flatten.length) (hbins : 0 < s1.nTimeBins_)
    (hist : List Mat3x3d) (cnt : List Int)
    (hh : hist[0]? = some (zeroLagSum s1))
    (hc : cnt[0]? = some (samples.flatten.length : Int)) :
    ({ s1 with histogram_ := hist, count_ := cnt } : ForTorCorrFunc).postCorrelate.histogram_[0]?
        = some (Mat3x3d.ofRat (covarianceTensor samples.flatten)) ∧
      covarianceTensor samples.flatten = fun r c =>
        meanOuter samples.flatten r c
          - meanVector samples.flatten r * meanVector samples.flatten c := by
  obtain ⟨i1, i2, i3, i4⟩ :=
    run_runningMeans calls _ s1 rets hrun (new_runningMeans nFrames_ nTimeBins_ histogram_ count_)
  have hcov := covarianceTensor_eq samples.flatten hN
  refine ⟨?_, hcov⟩
  have hNne : (samples.flatten.length : Int) ≠ 0 := by
    exact_mod_cast (Nat.pos_iff_ne_zero.mp hN)
  have hNpos : (0 : Int) < (samples.flatten.length : Int) := by exact_mod_cast hN
  have e1 : s1.sumForces_ =
      Vector3d.ofRat (fun i => (samples.flatten.map (fun v => v i)).sum) := by
    rw [i1, hF, storeSum_ofRat]
  have e2 : s1.sumTorques_ =
      Vector3d.ofRat (fun i => (samples.flatten.map (fun v => v i)).sum) := by
    rw [i3, hT, hF, storeSum_ofRat]
  have e3 : s1.forcesCount_ = (samples.flatten.length : Int) := by
    rw [i2, hF, storeCount_ofRat]
  have e4 : s1.torquesCount_ = (samples.flatten.length : Int) := by
    rw [i4, hT, hF, storeCount_ofRat]
  have hz := zeroLagSum_ofRat s1 samples hF hT
  rw [postCorrelate_histogram_getElem?
    ({ s1 with histogram_ := hist, count_ := cnt } : ForTorCorrFunc) 0 hbins]
  show (hist[0]?).map (fun m => if cnt.getD 0 0 > 0 then
      (m.divCount (cnt.getD 0 0)) -
        outProduct (s1.sumForces_.divCount s1.forcesCount_)
          (s1.sumTorques_.divCount s1.torquesCount_)
      else M3Zero) = _
  have hcd : cnt.getD 0 0 = (samples.flatten.length : Int) := by
    rw [List.getD_eq_getElem?_getD, hc]; rfl
  rw [hh, hz, e1, e2, e3, e4]
  simp only [Option.map_some', hcd, gt_iff_lt, hNpos, if_true]
  congr 1
  rw [hcov]
  funext r c
  show RealType.sub (RealType.divCount (RealType.fin _) _)
      (RealType.mul (RealType.divCount (RealType.fin _) _)
        (RealType.divCount (RealType.fin _) _)) = _
  simp only [RealType.divCount_fin _ _ hNne]
  show RealType.fin _ = RealType.fin _
  congr 1

theorem identity_mulVec_ofRat (v : Fin 3 → ℚ) :
    (sdBoth v).getA.mulVec (Vector3d.ofRat v) = Vector3d.ofRat v := by
  funext i
  fin_cases i <;>
    simp [Mat3x3d.mulVec, StuntDouble.getA, sdBoth, Mat3x3d.ofRat, Vector3d.ofRat]

/-- Witness for C4: the autocorrelation pass over the samples `(1, 2, 0)` and
`(3, 0, 0)`, with bin 0 holding the zero-lag sum and count 2; the mean is `(2, 1, 0)`. -/
theorem zero_lag_autocorrelation_witness :
    ({ autoFinal with histogram_ := [zeroLagSum autoFinal], count_ := [2] } :
        ForTorCorrFunc).postCorrelate.histogram_[0]?
      = some (Mat3x3d.ofRat (covarianceTensor [vec3 1 2 0, vec3 3 0 0])) ∧
    covarianceTensor [vec3 1 2 0, vec3 3 0 0] 0 0 = 1 ∧
    covarianceTensor [vec3 1 2 0, vec3 3 0 0] 0 1 = -1 :=
  ⟨(zero_lag_autocorrelation 2 1 [M3Zero] [0] autoCalls autoFinal [0, 0, 0, 0] rfl
    [[vec3 1 2 0], [vec3 3 0 0]]
    (by
      show [[(sdBoth (vec3 1 2 0)).getA.mulVec (Vector3d.ofRat (vec3 1 2 0))],
        [(sdBoth (vec3 3 0 0)).getA.mulVec (Vector3d.ofRat (vec3 3 0 0))]] = _
      rw [identity_mulVec_ofRat, identity_mulVec_ofRat]
      rfl)
    rfl (by decide) (by decide) [zeroLagSum autoFinal] [2] rfl rfl).1,
   by norm_num [covarianceTensor, meanVector, vec3],
   by norm_num [covarianceTensor, meanVector, vec3]⟩

end ForTorCorrFunc

/-! ### Merging -/

theorem zipWith_add_comm {α : Type} [AddCommMonoid α] (l1 : List α) :
    ∀ l2 : List α, List.zipWith (fun x y => x + y) l1 l2 =
      List.zipWith (fun x y => x + y) l2 l1 := by
  induction l1 with
  | nil => intro l2; cases l2 <;> rfl
  | cons a t ih =>
    intro l2
    cases l2 with
    | nil => rfl
    | cons b u =>
      simp only [List.zipWith_cons_cons]
      rw [ih u, add_comm a b]

theorem zipWith_add_assoc {α : Type} [AddCommMonoid α] (l1 : List α) :
    ∀ l2 l3 : List α,
      List.zipWith (fun x y => x + y) (List.zipWith (fun x y => x + y) l1 l2) l3 =
        List.zipWith (fun x y => x + y) l1 (List.zipWith (fun x y => x + y) l2 l3) := by
  induction l1 with
  | nil => intro l2 l3; simp
  | cons a t ih =>
    intro l2 l3
    cases l2 with
    | nil => simp
    | cons b u =>
      cases l3 with
      | nil => simp
      | cons c w =>
        simp only [List.zipWith_cons_cons]
        rw [ih u w, add_assoc a b c]

theorem zipWith_add_map {α ι : Type} [AddCommMonoid α] (f g : ι → α) (l : List ι) :
    List.zipWith (fun x y => x + y) (l.map f) (l.map g) = l.map (fun i => f i + g i) := by
  induction l with
  | nil => rfl
  | cons a t ih => simp only [List.map_cons, List.zipWith_cons_cons, ih]

theorem map_range_getD {α : Type} (d : α) (l : List α) :
    (List.range l.length).map (fun i => l.getD i d) = l := by
  have h := ForTorCorrFunc.map_range_getElem? (fun o : Option α => o.getD d) l
  simp only [Option.getD_some, List.map_id'] at h
  simp only [List.getD_eq_getElem?_getD]
  exact h

namespace AccumulatorState

theorem merge_comm (a b : AccumulatorState) : a.merge b = b.merge a := by
  unfold merge
  by_cases h : a.nTimeBins_ = b.nTimeBins_
  · rw [if_pos h, if_pos h.symm]
    simp only [Option.some.injEq, AccumulatorState.mk.injEq]
    exact ⟨h, zipWith_add_comm _ _, zipWith_add_comm _ _, add_comm _ _, add_comm _ _,
      add_comm _ _, add_comm _ _⟩
  · rw [if_neg h, if_neg (fun h1 => h h1.symm)]

theorem merge_assoc (a b c : AccumulatorState) :
    (a.merge b).bind (fun m => m.merge c) = (b.merge c).bind (fun m => a.merge m) := by
  unfold merge
  by_cases h1 : a.nTimeBins_ = b.nTimeBins_
  · by_cases h2 : b.nTimeBins_ = c.nTimeBins_
    · have h3 : a.nTimeBins_ = c.nTimeBins_ := h1.trans h2
      simp only [if_pos h1, if_pos h2, Option.some_bind, if_pos h3]
      simp only [Option.some.injEq, AccumulatorState.mk.injEq]
      exact ⟨trivial, zipWith_add_assoc _ _ _, zipWith_add_assoc _ _ _, add_assoc _ _ _,
        add_assoc _ _ _, add_assoc _ _ _, add_assoc _ _ _⟩
    · have h3 : ¬ a.nTimeBins_ = c.nTimeBins_ := fun h => h2 (h1.symm.trans h)
      simp only [if_pos h1, if_neg h2, Option.some_bind, Option.none_bind, if_neg h3]
  · by_cases h2 : b.nTimeBins_ = c.nTimeBins_
    · simp only [if_neg h1, if_pos h2, Option.some_bind, Option.none_bind]
    · simp only [if_neg h1, if_neg h2, Option.none_bind]

theorem totals_singleton (n : Nat) (a : AccumulatorState) (h : HasBins n a) :
    totals n [a] = a := by
  obtain ⟨h1, h2, h3⟩ := h
  cases a with
  | mk nb hist cnt sf fc st tc =>
    simp only at h1 h2 h3
    subst h1
    simp only [totals, List.map_cons, List.map_nil, List.sum_cons, List.sum_nil, add_zero,
      AccumulatorState.mk.injEq, true_and, and_true]
    refine ⟨?_, ?_⟩
    · have := map_range_getD M3Zero hist
      rw [h2] at this
      exact this
    · have := map_range_getD (0 : Int) cnt
      rw [h3] at this
      exact this

theorem merge_totals (n : Nat) (l1 l2 : List AccumulatorState) :
    (totals n l1).merge (totals n l2) = some (totals n (l1 ++ l2)) := by
  unfold merge
  have h0 : (totals n l1).nTimeBins_ = (totals n l2).nTimeBins_ := rfl
  rw [if_pos h0]
  simp only [totals, Option.some.injEq, AccumulatorState.mk.injEq, List.map_append,
    List.sum_append, true_and, and_true]
  exact ⟨zipWith_add_map _ _ _, zipWith_add_map _ _ _⟩

theorem totals_perm (n : Nat) (l1 l2 : List AccumulatorState) (h : l1.Perm l2) :
    totals n l1 = totals n l2 := by
  simp only [totals, AccumulatorState.mk.injEq, true_and]
  refine ⟨?_, ?_, (h.map _).sum_eq, (h.map _).sum_eq, (h.map _).sum_eq, (h.map _).sum_eq⟩
  · apply List.map_congr_left
    intro i _
    exact (h.map _).sum_eq
  · apply List.map_congr_left
    intro i _
    exact (h.map _).sum_eq

end AccumulatorState

theorem MergeTree.eval_eq_totals (n : Nat) (t : MergeTree) :
    (∀ a ∈ t.leaves, AccumulatorState.HasBins n a) →
      t.eval = some (AccumulatorState.totals n t.leaves) := by
  induction t with
  | leaf a =>
    intro h
    simp only [MergeTree.eval, MergeTree.leaves]
    rw [AccumulatorState.totals_singleton n a (h a (List.mem_singleton_self a))]
  | node l r ihl ihr =>
    intro h
    have hl := ihl (fun a ha => h a (by simp [MergeTree.leaves, ha]))
    have hr := ihr (fun a ha => h a (by simp [MergeTree.leaves, ha]))
    simp only [MergeTree.eval, hl, hr, MergeTree.leaves]
    exact AccumulatorState.merge_totals n _ _

/-- C8: merging accumulator states by element-wise summation is commutative and
associative, and for partial states over the same `n` bins every order and grouping of
the pairwise merges succeeds and yields the state of field-wise totals, so `postCorrelate`
gives the same histogram for every merge order and grouping as for the state of totals. -/
theorem merge_order_independent (n : Nat) (t1 t2 : MergeTree) (base : ForTorCorrFunc)
    (hbins : ∀ a ∈ t1.leaves, AccumulatorState.HasBins n a)
    (hperm : t1.leaves.Perm t2.leaves) :
    (∀ a b : AccumulatorState, a.merge b = b.merge a) ∧
    (∀ a b c : AccumulatorState,
      (a.merge b).bind (fun m => m.merge c) = (b.merge c).bind (fun m => a.merge m)) ∧
    ∃ m1 m2, t1.eval = some m1 ∧ t2.eval = some m2 ∧
      m1 = AccumulatorState.totals n t1.leaves ∧ m2 = m1 ∧
      (base.withAccumulator m1).postCorrelate.histogram_ =
        (base.withAccumulator (AccumulatorState.totals n t1.leaves)).postCorrelate.histogram_ ∧
      (base.withAccumulator m2).postCorrelate.histogram_ =
        (base.withAccumulator (AccumulatorState.totals n t1.leaves)).postCorrelate.histogram_ := by
  refine ⟨AccumulatorState.merge_comm, AccumulatorState.merge_assoc, ?_⟩
  have h1 := MergeTree.eval_eq_totals n t1 hbins
  have h2 := MergeTree.eval_eq_totals n t2 (fun a ha => hbins a (hperm.mem_iff.mpr ha))
  have hp := AccumulatorState.totals_perm n _ _ hperm
  refine ⟨_, _, h1, h2, rfl, hp.symm, rfl, ?_⟩
  rw [← hp]

/-- Witness for C8: two groupings and orders of three partial states over two bins. -/
theorem merge_order_independent_witness :
    ∃ m1 m2, mergeLeft.eval = some m1 ∧ mergeRight.eval = some m2 ∧
      m1 = AccumulatorState.totals 2 mergeLeft.leaves ∧ m2 = m1 ∧
      (scenario.withAccumulator m1).postCorrelate.histogram_ =
        (scenario.withAccumulator
          (AccumulatorState.totals 2 mergeLeft.leaves)).postCorrelate.histogram_ ∧
      (scenario.withAccumulator m2).postCorrelate.histogram_ =
        (scenario.withAccumulator
          (AccumulatorState.totals 2 mergeLeft.leaves)).postCorrelate.histogram_ :=
  (merge_order_independent 2 mergeLeft mergeRight scenario
    (by
      intro a ha
      have hmem : a = partA ∨ a = partB ∨ a = partC := by
        simpa [mergeLeft, MergeTree.leaves] using ha
      rcases hmem with h | h | h <;> subst h <;> exact ⟨rfl, rfl, rfl⟩)
    (List.perm_append_comm : ([partA, partB] ++ [partC]).Perm ([partC] ++ [partA, partB]))).2.2

end OpenMD

namespace oopse

namespace ParallelRandNumGen

theorem toUint32_32 (x : Int) : toUint32 32 x = x % 4294967296 := by
  unfold toUint32
  norm_num

theorem new_eq (n s : Int) (hs : 0 ≤ s ∧ s < 4294967296) :
    new 32 n s = Except.ok
      ({ mtRand_ := { seed := toInt ((s + n % 4294967296) % 4294967296), nstrides := 1,
                      stride := 0 }
         myRank_ := 0 },
       toInt (n + 1)) := by
  have hcheck : toUint32 32 (toInt s) = s := by
    rw [toUint32_32]
    unfold toInt
    omega
  unfold new
  simp only [hcheck, ne_eq, not_true_eq_false, if_false, toUint32_32]

theorem seed_eq (g : ParallelRandNumGen) (n s : Int) (hs : 0 ≤ s ∧ s < 4294967296) :
    seed 32 g n s = Except.ok
      ({ g with mtRand_ :=
          { g.mtRand_ with seed := toInt ((s + n % 4294967296) % 4294967296) } },
       toInt (n + 1)) := by
  have hcheck : toUint32 32 (toInt s) = s := by
    rw [toUint32_32]
    unfold toInt
    omega
  unfold seed
  simp only [hcheck, ne_eq, not_true_eq_false, if_false, toUint32_32]

theorem toUint32_64 (x : Int) : toUint32 64 x = x % 18446744073709551616 := by
  unfold toUint32
  norm_num

/-- With a `uint32` of 64 bits, every seed from `2^31` up to `2^32 - 1` raises the
seed-mismatch error in the constructor and in `seed`, whatever the counter: the `int` copy
of the seed is negative and converts back to a different unsigned value. -/
theorem mismatch_on_wide_uint32 (n s : Int) (hs : 2147483648 ≤ s ∧ s < 4294967296) :
    new 64 n s = Except.error seedMismatch ∧
      ∀ g : ParallelRandNumGen, seed 64 g n s = Except.error seedMismatch := by
  have hcheck : toUint32 64 (toInt s) ≠ s := by
    rw [toUint32_64]
    unfold toInt
    omega
  constructor
  · unfold new
    simp only [hcheck, ne_eq, not_false_eq_true, if_true]
  · intro g
    unfold seed
    simp only [hcheck, ne_eq, not_false_eq_true, if_true]

/-- With a `uint32` of exactly 32 bits, for every seed `s` and every value `n < 2^31 - 1`
of the `int` counter, the constructor and `seed(s)` raise no seed-mismatch error, hand the
underlying generator a seed congruent to `s + n` modulo `2^32` and advance the counter by
exactly one. -/
theorem offset_on_narrow_uint32 (s n : Int) (hs : 0 ≤ s ∧ s < 4294967296)
    (hn : -2147483648 ≤ n ∧ n < 2147483647) :
    (∃ g, new 32 n s = Except.ok (g, n + 1) ∧
      g.mtRand_.seed % 4294967296 = (s + n) % 4294967296) ∧
    (∀ g0 : ParallelRandNumGen, ∃ g, seed 32 g0 n s = Except.ok (g, n + 1) ∧
      g.mtRand_.seed % 4294967296 = (s + n) % 4294967296) := by
  have hseed : toInt ((s + n % 4294967296) % 4294967296) % 4294967296 =
      (s + n) % 4294967296 := by
    unfold toInt
    omega
  have hc : toInt (n + 1) = n + 1 := by
    unfold toInt
    omega
  constructor
  · exact ⟨_, by rw [new_eq n s hs, hc], hseed⟩
  · intro g0
    exact ⟨_, by rw [seed_eq g0 n s hs, hc], hseed⟩

/-- C9: on a build whose `uint32` is 64 bits wide (`unsigned long` on LP64), the
constructor and `seed` called with the 32-bit seed `2^31` and the counter at 0 raise the
fatal seed-mismatch error instead of seeding the generator with `2^31 + 0`; on a build
whose `uint32` is 32 bits wide the same call seeds the generator with `2^31` and moves the
counter to 1. -/
theorem seed_mismatch_on_wide_uint32 :
    new 64 0 2147483648 = Except.error seedMismatch ∧
    (∀ g : ParallelRandNumGen, seed 64 g 0 2147483648 = Except.error seedMismatch) ∧
    (new 32 0 2147483648).toOption.map (fun p => (p.1.mtRand_.seed % 4294967296, p.2)) =
      some (2147483648, 1) :=
  ⟨(mismatch_on_wide_uint32 0 2147483648 (by decide)).1,
   (mismatch_on_wide_uint32 0 2147483648 (by decide)).2, by decide⟩

end ParallelRandNumGen

end oopse

namespace OpenBabel

namespace OOPSEFormat

/-! ### Grouping of fragments -/

theorem areSameFragments_iff (mol : OBMol) (frag1 frag2 : List Int) :
    AreSameFragments mol frag1 frag2 = true ↔
      frag1.map mol.atomicNum = frag2.map mol.atomicNum := by
  unfold AreSameFragments
  by_cases hlen : frag1.length = frag2.length
  · simp only [ne_eq, hlen, not_true_eq_false, if_false, List.all_eq_true, List.mem_range,
      beq_iff_eq]
    constructor
    · intro h
      apply List.ext_getElem
      · simp [hlen]
      · intro i h1 h2
        have hi1 : i < frag1.length := by simpa using h1
        have hi2 : i < frag2.length := by simpa using h2
        have := h i hi2
        simp only [List.getD_eq_getElem?_getD, List.getElem?_eq_getElem hi1,
          List.getElem?_eq_getElem hi2, Option.getD_some] at this
        simpa using this
    · intro h i hi
      have hi1 : i < frag1.length := by omega
      have hg := congrArg (fun l => l[i]?) h
      simp only [List.getElem?_map, List.getElem?_eq_getElem hi1, List.getElem?_eq_getElem hi,
        Option.map_some', Option.some.injEq] at hg
      simp only [List.getD_eq_getElem?_getD, List.getElem?_eq_getElem hi1,
        List.getElem?_eq_getElem hi, Option.getD_some]
      exact hg
  · simp only [ne_eq, hlen, not_false_eq_true, if_true, Bool.false_eq_true, false_iff]
    intro h
    exact hlen (by simpa using congrArg List.length h)

theorem getD_set_true (used : List Bool) (j x : Nat) :
    (used.set j true).getD x false = true ↔
      (x = j ∧ j < used.length) ∨ used.getD x false = true := by
  simp only [List.getD_eq_getElem?_getD]
  by_cases hx : x = j
  · subst hx
    by_cases hl : x < used.length
    · simp [List.getElem?_set_self hl, hl]
    · have h1 : (used.set x true)[x]? = none :=
        List.getElem?_eq_none (by simpa using hl)
      have h2 : used[x]? = none := List.getElem?_eq_none (by simpa using hl)
      simp [h1, h2, hl]
  · have hne : j ≠ x := fun h => hx h.symm
    simp [List.getElem?_set_ne hne, hx]

theorem getD_true_lt (used : List Bool) (x : Nat) (h : used.getD x false = true) :
    x < used.length := by
  by_contra hc
  rw [List.getD_eq_getElem?_getD, List.getElem?_eq_none (by omega)] at h
  exact absurd h (by simp)

/-- The inner loop over a duplicate-free list of indices `js`: it appends to
`sameMolTypes` the unused `j` whose fragment matches fragment `i`, in order, and marks
exactly those as used. -/
theorem inner_foldl (mol : OBMol) (F : List (List Int)) (i : Nat) (js : List Nat) :
    js.Nodup → ∀ (used : List Bool) (same : List Nat) (idx : List Int),
      (js.foldl (innerStep mol F i) (used, same, idx)).2.1 =
          same ++ js.filter (fun j => !used.getD j false &&
            AreSameFragments mol (F.getD i []) (F.getD j [])) ∧
        (js.foldl (innerStep mol F i) (used, same, idx)).1.length = used.length ∧
        ∀ x, (js.foldl (innerStep mol F i) (used, same, idx)).1.getD x false = true ↔
          (used.getD x false = true ∨
            (x ∈ js ∧ x < used.length ∧
              AreSameFragments mol (F.getD i []) (F.getD x []) = true)) := by
  induction js with
  | nil =>
    intro _ used same idx
    simp
  | cons j t ih =>
    intro hnd used same idx
    have hjt : j ∉ t := (List.nodup_cons.mp hnd).1
    have htn : t.Nodup := (List.nodup_cons.mp hnd).2
    rw [List.foldl_cons]
    by_cases hu : used.getD j false = true
    · have hstep : innerStep mol F i (used, same, idx) j = (used, same, idx) := by
        simp only [innerStep, hu, if_true]
      rw [hstep]
      obtain ⟨h1, h2, h3⟩ := ih htn used same idx
      refine ⟨?_, h2, ?_⟩
      · have hp : ¬ ((!used.getD j false &&
            AreSameFragments mol (F.getD i []) (F.getD j [])) = true) := by
          rw [hu]; simp
        have hf : (j :: t).filter (fun x => !used.getD x false &&
            AreSameFragments mol (F.getD i []) (F.getD x [])) = t.filter (fun x => !used.getD x false &&
            AreSameFragments mol (F.getD i []) (F.getD x [])) :=
          List.filter_cons_of_neg hp
        rw [h1, hf]
      · intro x
        rw [h3 x]
        constructor
        · rintro (h | ⟨hx, hl, hr⟩)
          · exact Or.inl h
          · exact Or.inr ⟨List.mem_cons_of_mem _ hx, hl, hr⟩
        · rintro (h | ⟨hx, hl, hr⟩)
          · exact Or.inl h
          · rcases List.mem_cons.mp hx with hxj | hxt
            · subst hxj; exact Or.inl hu
            · exact Or.inr ⟨hxt, hl, hr⟩
    · have hu0 : used.getD j false = false := by
        cases hb : used.getD j false with
        | true => exact absurd hb hu
        | false => rfl
      by_cases hr : AreSameFragments mol (F.getD i []) (F.getD j []) = true
      · have hstep : innerStep mol F i (used, same, idx) j =
            (used.set j true, same ++ [j], idx ++ F.getD j []) := by
          simp only [innerStep, hu0, Bool.false_eq_true, if_false, hr, if_true]
        rw [hstep]
        obtain ⟨h1, h2, h3⟩ := ih htn (used.set j true) (same ++ [j]) (idx ++ F.getD j [])
        have hfil : t.filter (fun x => !(used.set j true).getD x false &&
              AreSameFragments mol (F.getD i []) (F.getD x [])) =
            t.filter (fun x => !used.getD x false &&
              AreSameFragments mol (F.getD i []) (F.getD x [])) := by
          apply List.filter_congr
          intro x hx
          have hxj : j ≠ x := fun h => hjt (h ▸ hx)
          simp only [List.getD_eq_getElem?_getD, List.getElem?_set_ne hxj]
        refine ⟨?_, ?_, ?_⟩
        · have hp : (!used.getD j false &&
              AreSameFragments mol (F.getD i []) (F.getD j [])) = true := by
            rw [hu0, hr]; rfl
          have hf : (j :: t).filter (fun x => !used.getD x false &&
            AreSameFragments mol (F.getD i []) (F.getD x [])) = j :: t.filter (fun x => !used.getD x false &&
            AreSameFragments mol (F.getD i []) (F.getD x [])) :=
            List.filter_cons_of_pos hp
          rw [h1, hfil, hf, List.append_assoc]
          rfl
        · rw [h2, List.length_set]
        · intro x
          rw [h3 x, getD_set_true, List.length_set]
          constructor
          · rintro ((⟨hxj, hl⟩ | h) | ⟨hx, hl, hrx⟩)
            · subst hxj
              exact Or.inr ⟨List.mem_cons_self _ _, hl, hr⟩
            · exact Or.inl h
            · exact Or.inr ⟨List.mem_cons_of_mem _ hx, hl, hrx⟩
          · rintro (h | ⟨hx, hl, hrx⟩)
            · exact Or.inl (Or.inr h)
            · rcases List.mem_cons.mp hx with hxj | hxt
              · subst hxj; exact Or.inl (Or.inl ⟨rfl, hl⟩)
              · exact Or.inr ⟨hxt, hl, hrx⟩
      · have hr0 : AreSameFragments mol (F.getD i []) (F.getD j []) = false := by
          cases hb : AreSameFragments mol (F.getD i []) (F.getD j []) with
          | true => exact absurd hb hr
          | false => rfl
        have hstep : innerStep mol F i (used, same, idx) j = (used, same, idx) := by
          simp only [innerStep, hu0, Bool.false_eq_true, if_false, hr0]
        rw [hstep]
        obtain ⟨h1, h2, h3⟩ := ih htn used same idx
        refine ⟨?_, h2, ?_⟩
        · have hp : ¬ ((!used.getD j false &&
              AreSameFragments mol (F.getD i []) (F.getD j [])) = true) := by
            rw [hr0]; simp
          have hf : (j :: t).filter (fun x => !used.getD x false &&
            AreSameFragments mol (F.getD i []) (F.getD x [])) = t.filter (fun x => !used.getD x false &&
            AreSameFragments mol (F.getD i []) (F.getD x [])) :=
            List.filter_cons_of_neg hp
          rw [h1, hf]
        · intro x
          rw [h3 x]
          constructor
          · rintro (h | ⟨hx, hl, hrx⟩)
            · exact Or.inl h
            · exact Or.inr ⟨List.mem_cons_of_mem _ hx, hl, hrx⟩
          · rintro (h | ⟨hx, hl, hrx⟩)
            · exact Or.inl h
            · rcases List.mem_cons.mp hx with hxj | hxt
              · subst hxj; rw [hr0] at hrx; exact absurd hrx (by simp)
              · exact Or.inr ⟨hxt, hl, hrx⟩

theorem outerStep_inv (mol : OBMol) (F : List (List Int)) (k : Nat) (st : Grouping)
    (hk : k < F.length) (h : GroupingInv mol F k st) :
    GroupingInv mol F (k + 1) (outerStep mol F st k) := by
  obtain ⟨I1, I2, I3, I4, I5⟩ := h
  by_cases hu : st.used.getD k false = true
  · have hst : outerStep mol F st k = st := by
      simp only [outerStep, hu, if_true]
    rw [hst]
    refine ⟨I1, I2, I3, I4, fun j hj => ?_⟩
    rcases Nat.lt_succ_iff_lt_or_eq.mp hj with hj1 | hj1
    · exact I5 j hj1
    · subst hj1; exact hu
  · have hu0 : st.used.getD k false = false := by
      cases hb : st.used.getD k false with
      | true => exact absurd hb hu
      | false => rfl
    have hnd : (List.range' (k + 1) ((st.used.set k true).length - (k + 1))).Nodup :=
      List.nodup_range' _ _
    obtain ⟨h1, h2, h3⟩ := inner_foldl mol F k _ hnd (st.used.set k true) [k]
      (st.indices ++ F.getD k [])
    have hout : outerStep mol F st k =
        { used := ((List.range' (k + 1) ((st.used.set k true).length - (k + 1))).foldl
            (innerStep mol F k) (st.used.set k true, [k], st.indices ++ F.getD k [])).1
          molecules := st.molecules ++
            [((List.range' (k + 1) ((st.used.set k true).length - (k + 1))).foldl
              (innerStep mol F k) (st.used.set k true, [k], st.indices ++ F.getD k [])).2.1]
          indices := ((List.range' (k + 1) ((st.used.set k true).length - (k + 1))).foldl
            (innerStep mol F k) (st.used.set k true, [k], st.indices ++ F.getD k [])).2.2 } := by
      simp only [outerStep, hu0, Bool.false_eq_true, if_false]
    rw [hout]
    generalize (List.range' (k + 1) ((st.used.set k true).length - (k + 1))).foldl
      (innerStep mol F k) (st.used.set k true, [k], st.indices ++ F.getD k []) = r
      at h1 h2 h3
    rw [List.length_set, I1] at h2
    have hjs : ∀ x, x ∈ List.range' (k + 1) ((st.used.set k true).length - (k + 1)) ↔
        (k < x ∧ x < F.length) := by
      intro x
      rw [List.mem_range'_1, List.length_set, I1]
      omega
    -- an index whose fragment matches fragment `k` is not used yet
    have hA : ∀ x, x < F.length →
        (F.getD k []).map mol.atomicNum = (F.getD x []).map mol.atomicNum →
        st.used.getD x false = false := by
      intro x hx hkey
      cases hb : st.used.getD x false with
      | false => rfl
      | true =>
        obtain ⟨g, hg, hxg⟩ := (I2 x).mp hb
        have hkg : k ∈ g := (I4 g hg x hxg k).mpr ⟨hk, hkey.symm⟩
        exact absurd ((I2 k).mpr ⟨g, hg, hkg⟩) hu
    have hge : ∀ x, st.used.getD x false = false → k ≤ x := by
      intro x hx
      by_contra hc
      have := I5 x (by omega)
      rw [hx] at this
      exact absurd this (by simp)
    -- the members of the new group
    have hB : ∀ x, x ∈ r.2.1 ↔ (x < F.length ∧
        (F.getD k []).map mol.atomicNum = (F.getD x []).map mol.atomicNum) := by
      intro x
      rw [h1, List.mem_append, List.mem_singleton, List.mem_filter, hjs]
      simp only [Bool.and_eq_true, Bool.not_eq_true', areSameFragments_iff]
      constructor
      · rintro (hxk | ⟨⟨-, hxn⟩, -, hkey⟩)
        · subst hxk; exact ⟨hk, rfl⟩
        · exact ⟨hxn, hkey⟩
      · rintro ⟨hxn, hkey⟩
        have hx0 := hA x hxn hkey
        have hkx := hge x hx0
        by_cases hxk : x = k
        · exact Or.inl hxk
        · refine Or.inr ⟨⟨by omega, hxn⟩, ?_, hkey⟩
          have hne : k ≠ x := fun h => hxk h.symm
          rw [List.getD_eq_getElem?_getD, List.getElem?_set_ne hne,
            ← List.getD_eq_getElem?_getD]
          exact hx0
    have hused : ∀ x, r.1.getD x false = true ↔
        (st.used.getD x false = true ∨ x ∈ r.2.1) := by
      intro x
      rw [h3 x, getD_set_true, hB x, hjs, List.length_set, I1, areSameFragments_iff]
      constructor
      · rintro ((⟨hxk, -⟩ | hx) | ⟨-, hxn, hkey⟩)
        · subst hxk; exact Or.inr ⟨hk, rfl⟩
        · exact Or.inl hx
        · exact Or.inr ⟨hxn, hkey⟩
      · rintro (hx | ⟨hxn, hkey⟩)
        · exact Or.inl (Or.inr hx)
        · by_cases hxk : x = k
          · exact Or.inl (Or.inl ⟨hxk, hk⟩)
          · have hkx := hge x (hA x hxn hkey)
            exact Or.inr ⟨⟨by omega, hxn⟩, hxn, hkey⟩
    refine ⟨h2, ?_, ?_, ?_, ?_⟩
    · intro x
      rw [hused x, I2 x]
      constructor
      · rintro (⟨g, hg, hxg⟩ | hx)
        · exact ⟨g, List.mem_append_left _ hg, hxg⟩
        · exact ⟨r.2.1, List.mem_append_right _ (List.mem_singleton_self _), hx⟩
      · rintro ⟨g, hg, hxg⟩
        rcases List.mem_append.mp hg with hg1 | hg1
        · exact Or.inl ⟨g, hg1, hxg⟩
        · rw [List.mem_singleton] at hg1
          subst hg1
          exact Or.inr hxg
    · show (st.molecules ++ [r.2.1]).flatten.Nodup
      rw [List.flatten_concat, List.nodup_append]
      refine ⟨I3, ?_, ?_⟩
      · rw [h1]
        show (k :: List.filter _ _).Nodup
        rw [List.nodup_cons]
        refine ⟨?_, hnd.filter _⟩
        intro hmem
        have := (hjs k).mp (List.mem_filter.mp hmem).1
        omega
      · intro x hx1 hx2
        obtain ⟨g, hg, hxg⟩ := List.mem_flatten.mp hx1
        have hxu := (I2 x).mpr ⟨g, hg, hxg⟩
        obtain ⟨hxn, hkey⟩ := (hB x).mp hx2
        rw [hA x hxn hkey] at hxu
        exact absurd hxu (by simp)
    · intro g hg a ha b
      rcases List.mem_append.mp hg with hg1 | hg1
      · exact I4 g hg1 a ha b
      · rw [List.mem_singleton] at hg1
        subst hg1
        obtain ⟨-, hka⟩ := (hB a).mp ha
        rw [hB b, hka]
    · intro j hj
      rw [hused j]
      rcases Nat.lt_succ_iff_lt_or_eq.mp hj with hj1 | hj1
      · exact Or.inl (I5 j hj1)
      · subst hj1
        exact Or.inr ((hB j).mpr ⟨hk, rfl⟩)

theorem getD_replicate_false (n j : Nat) :
    (List.replicate n false).getD j false = false := by
  rw [List.getD_eq_getElem?_getD]
  by_cases h : j < n
  · rw [List.getElem?_eq_getElem (by simpa using h)]
    simp
  · rw [List.getElem?_eq_none (by simpa using h)]
    rfl

theorem outerLoop_inv (mol : OBMol) (F : List (List Int)) (k : Nat) (hk : k ≤ F.length) :
    GroupingInv mol F k ((List.range k).foldl (outerStep mol F)
      { used := List.replicate F.length false, molecules := [], indices := [] }) := by
  induction k with
  | zero =>
    refine ⟨by simp, ?_, by simp, ?_, ?_⟩
    · intro j
      simp [getD_replicate_false]
    · intro g hg
      simp at hg
    · intro j hj
      omega
  | succ k ih =>
    rw [List.range_succ, List.foldl_append, List.foldl_cons, List.foldl_nil]
    exact outerStep_inv mol F k _ (by omega) (ih (by omega))

theorem sum_numMols (molecules : List (List Nat)) :
    (numMols molecules).sum = (molecules.flatten.length : Int) := by
  induction molecules with
  | nil => rfl
  | cons g t ih =>
    simp only [numMols, List.map_cons, List.sum_cons, List.flatten_cons, List.length_append,
      Nat.cast_add] at ih ⊢
    rw [ih]

/-- C11: for every molecule and every list of fragments, the grouping loop of
`WriteMolecule` leaves in `molecules` exactly the classes of `AreSameFragments` (equal
atom count and equal atomic number at every position): the groups together hold every
fragment index exactly once, two fragment indices share a group if and only if
`AreSameFragments` holds for their fragments, and the entries of `numMols` sum to the
number of fragments. -/
theorem grouping_gives_equivalence_classes (mol : OBMol) (fragmentLists : List (List Int)) :
    ((groupFragments mol fragmentLists).molecules.flatten).Perm
        (List.range fragmentLists.length) ∧
    (∀ a b, a < fragmentLists.length → b < fragmentLists.length →
      ((∃ g ∈ (groupFragments mol fragmentLists).molecules, a ∈ g ∧ b ∈ g) ↔
        AreSameFragments mol (fragmentLists.getD a []) (fragmentLists.getD b []) = true)) ∧
    (∀ frag1 frag2 : List Int, AreSameFragments mol frag1 frag2 = true ↔
      (frag1.length = frag2.length ∧
        ∀ p, p < frag1.length →
          mol.atomicNum (frag1.getD p 0) = mol.atomicNum (frag2.getD p 0))) ∧
    (numMols (groupFragments mol fragmentLists).molecules).sum =
      (fragmentLists.length : Int) := by
  have hinv : GroupingInv mol fragmentLists fragmentLists.length
      (groupFragments mol fragmentLists) :=
    outerLoop_inv mol fragmentLists fragmentLists.length le_rfl
  obtain ⟨I1, I2, I3, I4, I5⟩ := hinv
  have hperm : ((groupFragments mol fragmentLists).molecules.flatten).Perm
      (List.range fragmentLists.length) := by
    rw [List.perm_ext_iff_of_nodup I3 (List.nodup_range _)]
    intro x
    rw [List.mem_flatten, List.mem_range]
    constructor
    · intro hx
      have := getD_true_lt _ x ((I2 x).mpr hx)
      rw [I1] at this
      exact this
    · intro hx
      exact (I2 x).mp (I5 x hx)
  refine ⟨hperm, ?_, ?_, ?_⟩
  · intro a b ha hb
    rw [areSameFragments_iff]
    constructor
    · rintro ⟨g, hg, hag, hbg⟩
      exact ((I4 g hg a hag b).mp hbg).2
    · intro hkey
      obtain ⟨g, hg, hag⟩ := (I2 a).mp (I5 a ha)
      exact ⟨g, hg, hag, (I4 g hg a hag b).mpr ⟨hb, hkey⟩⟩
  · intro frag1 frag2
    unfold AreSameFragments
    by_cases hlen : frag1.length = frag2.length
    · simp [hlen]
    · simp [hlen]
  · rw [sum_numMols, hperm.length_eq, List.length_range]

/-- The grouping of the five example fragments: the three O-H-H fragments and the two
O-H fragments. -/
theorem groupFragments_waterFragments :
    (groupFragments OpenMD.waterLike OpenMD.waterFragments).molecules = [[0, 2, 4], [1, 3]] ∧
    numMols (groupFragments OpenMD.waterLike OpenMD.waterFragments).molecules = [3, 2] := by
  decide

/-! ### The output file name -/

theorem lastDot_eq_none (name : List Char) (h : '.' ∉ name) : lastDot name = none := by
  induction name with
  | nil => rfl
  | cons c cs ih =>
    have hc : c ≠ '.' := fun hc => h (hc ▸ List.mem_cons_self _ _)
    have hcs : '.' ∉ cs := fun hm => h (List.mem_cons_of_mem _ hm)
    simp only [lastDot, ih hcs, hc, if_false]

theorem lastDot_append (pre suf : List Char) (h : '.' ∉ suf) :
    lastDot (pre ++ '.' :: suf) = some pre.length := by
  induction pre with
  | nil =>
    simp only [List.nil_append, lastDot, lastDot_eq_none suf h, if_true, List.length_nil]
  | cons c cs ih =>
    show (match lastDot (cs ++ '.' :: suf) with
      | some p => some (p + 1)
      | none => if c = '.' then some 0 else none) = some (cs.length + 1)
    rw [ih]

theorem npos_mod (W : Nat) (hW : 32 ≤ W) : npos W % 2 ^ 32 = 2 ^ 32 - 1 := by
  obtain ⟨d, rfl⟩ := Nat.exists_eq_add_of_le hW
  have hd : 0 < 2 ^ d := Nat.two_pow_pos d
  have h : npos (32 + d) = 2 ^ 32 - 1 + 2 ^ 32 * (2 ^ d - 1) := by
    unfold npos
    rw [Nat.pow_add, Nat.mul_sub, Nat.mul_one]
    have : 2 ^ 32 ≤ 2 ^ 32 * 2 ^ d := Nat.le_mul_of_pos_right _ hd
    omega
  rw [h, Nat.add_mul_mod_self_left]
  exact Nat.mod_eq_of_lt (by decide)

theorem le_npos (W : Nat) (hW : 32 ≤ W) : 2 ^ 32 - 1 ≤ npos W := by
  unfold npos
  have : 2 ^ 32 ≤ 2 ^ W := Nat.pow_le_pow_right (by decide) hW
  omega

/-- C12: for a `size_t` of at least 32 bits and an input file name shorter than
`2^32 - 1` characters, the output file name is the input name with everything from its
last `'.'` onward replaced by `".md"`, and the whole input name followed by `".md"` when
the name has no `'.'`, although the position is stored in a 32-bit `unsigned int` before
it is compared with `string::npos`. -/
theorem outputFileName_replaces_extension (W : Nat) (inFilename : List Char)
    (hW : 32 ≤ W) (hlen : inFilename.length < 2 ^ 32 - 1) :
    (∀ pre suf : List Char, inFilename = pre ++ '.' :: suf → '.' ∉ suf →
      outputFileName W inFilename = pre ++ ['.', 'm', 'd']) ∧
    ('.' ∉ inFilename → outputFileName W inFilename = inFilename ++ ['.', 'm', 'd']) := by
  constructor
  · intro pre suf hname hsuf
    have hpre : pre.length < 2 ^ 32 - 1 := by
      have : pre.length ≤ inFilename.length := by
        rw [hname, List.length_append]
        omega
      omega
    have hfind : rfind W inFilename = pre.length := by
      unfold rfind
      rw [hname, lastDot_append pre suf hsuf]
    have hmod : pre.length % 2 ^ 32 = pre.length := Nat.mod_eq_of_lt (by omega)
    have hne : pre.length ≠ npos W := by
      have := le_npos W hW
      omega
    unfold outputFileName
    simp only [hfind, hmod, hne, if_false]
    rw [hname, List.take_left]
  · intro hno
    have hfind : rfind W inFilename = npos W := by
      unfold rfind
      rw [lastDot_eq_none inFilename hno]
    unfold outputFileName
    simp only [hfind, npos_mod W hW]
    split
    · rfl
    · rw [List.take_of_length_le (by omega)]

/-- Witness for C12 with a 64-bit `size_t`: `a.b.xyz` becomes `a.b.md` and `abc`
becomes `abc.md`. -/
theorem outputFileName_replaces_extension_witness :
    outputFileName 64 ['a', '.', 'b', '.', 'x', 'y', 'z'] = ['a', '.', 'b', '.', 'm', 'd'] ∧
    outputFileName 64 ['a', 'b', 'c'] = ['a', 'b', 'c', '.', 'm', 'd'] :=
  ⟨(outputFileName_replaces_extension 64 ['a', '.', 'b', '.', 'x', 'y', 'z'] (by decide)
      (by decide)).1 ['a', '.', 'b'] ['x', 'y', 'z'] rfl (by decide),
   (outputFileName_replaces_extension 64 ['a', 'b', 'c'] (by decide) (by decide)).2
      (by decide)⟩

end OOPSEFormat

end OpenBabel
